import Mathlib

/-!
# mou: lazy elementwise expressions over tensors

A shallow embedding of `include/mou/tensor.h` (`ShapeBase`, `Tensor`) and of the
functors of `test/test_lazy_eval.cc` (`maximum`, `minimum`).  The header
`lazy_eval.h` (the expression nodes, the factory `F`, the functor `div`) is
not among the sources: what is needed of it is modelled from the
specification, and marked so.

* `size_t` is a `Nat` reduced modulo `2 ^ 64`, `int` is an `Int` in
  `[-2 ^ 31, 2 ^ 31)`; a signed overflow is undefined behaviour.
* The free store is explicit: a `Heap` is the list of all blocks ever handed
  out by the allocator, a pointer is the number of a block (or null), and every
  operation that touches memory takes the heap and returns the new one.
* Undefined behaviour, a thrown `std::out_of_range` and a failed `assert` are
  faults of `Fault`; an operation returns `Except Fault _`.  Whether `assert`
  checks anything depends on the macro `NDEBUG` of the build, a parameter.
* The scalar type `DType` is a parameter `α`.  `Flt` models the values of
  `float` as far as `>`, `<=` and `/` tell them apart.
* A tensor is the pair of its members `dptr` and `shape`; a leaf of an
  expression carries the tensor it refers to (no member of a tensor changes
  while an expression that refers to it is alive).
* The containers `Vec` of the test are declared in `lazy_eval.h` as well; a
  vector is the pair of its buffer and its length, assigned to as the
  specification describes.
-/

namespace mou

/-! ## Machine integers -/

/-- The number of values of `size_t`. -/
def SIZE_MOD : Nat := 2 ^ 64

/-- The greatest `int`. -/
def INT_MAX : Nat := 2 ^ 31 - 1

/-- Conversion of a `size_t` to `int`: the low 32 bits, read in two's complement. -/
def toInt (x : Nat) : Int :=
  if x % 2 ^ 32 < 2 ^ 31 then ((x % 2 ^ 32 : Nat) : Int) else ((x % 2 ^ 32 : Nat) : Int) - 2 ^ 32

/-- Conversion of an `int` to `size_t`: the value modulo `2 ^ 64`. -/
def toSizeT (z : Int) : Nat := (z % 2 ^ 64).toNat

/-- The ways an operation can fail. -/
inductive Fault where
  /-- Undefined behaviour: a null, dangling, out-of-bounds or uninitialised
  access, a signed overflow, a violated library precondition. -/
  | undefined
  /-- The exception `std::out_of_range` of `std::vector::at`. -/
  | out_of_range
  /-- A failed `assert`. -/
  | assertion
  /-- The loop model ran out of fuel (never happens for the fuel the callers give). -/
  | fuel
  deriving DecidableEq, Repr

/-! ## Scalars -/

/-- The values of `float` as far as comparison and division tell them apart:
not-a-number, the two infinities and the finite values.  Finite values are
exact rationals (rounding is not modelled, and zero carries no sign). -/
inductive Flt where
  | nan
  | ninf
  | pinf
  | fin (q : ℚ)
  deriving DecidableEq

namespace Flt

/-- The comparison `a < b` of `float`: false as soon as one side is NaN. -/
def lt : Flt → Flt → Bool
  | fin a, fin b => decide (a < b)
  | ninf, fin _ => true
  | ninf, pinf => true
  | fin _, pinf => true
  | _, _ => false

/-- The comparison `a == b` of `float`: NaN equals nothing, itself included. -/
def eq : Flt → Flt → Bool
  | fin a, fin b => decide (a = b)
  | ninf, ninf => true
  | pinf, pinf => true
  | _, _ => false

/-- The comparison `a <= b` of `float`. -/
def le (a b : Flt) : Bool := lt a b || eq a b

/-- Is the value neither NaN nor infinite? -/
def isFinite : Flt → Bool
  | fin _ => true
  | _ => false

/-- The division `a / b` of `float` (IEEE 754, without rounding). -/
def div : Flt → Flt → Flt
  | nan, _ => nan
  | _, nan => nan
  | fin a, fin b =>
      if b = 0 then (if a = 0 then nan else if 0 < a then pinf else ninf) else fin (a / b)
  | fin _, _ => fin 0
  | pinf, fin b => if b < 0 then ninf else pinf
  | ninf, fin b => if b < 0 then pinf else ninf
  | _, _ => nan

instance : LT Flt := ⟨fun a b => lt a b = true⟩
instance : LE Flt := ⟨fun a b => le a b = true⟩
instance : DecidableRel (fun a b : Flt => a < b) := fun a b => inferInstanceAs (Decidable (lt a b = true))
instance : DecidableRel (fun a b : Flt => a ≤ b) := fun a b => inferInstanceAs (Decidable (le a b = true))
instance : Div Flt := ⟨div⟩
instance : OfNat Flt n := ⟨fin n⟩

end Flt

/-! ## Operation functors -/

namespace maximum

/-- The functor `maximum` of `test_lazy_eval.cc`: `a > b ? a : b`. -/
def Map {α : Type} [LT α] [DecidableRel (fun a b : α => a < b)] (a b : α) : α :=
  if a > b then a else b

end maximum

namespace minimum

/-- The functor `minimum` of `test_lazy_eval.cc`: `a > b ? b : a`. -/
def Map {α : Type} [LT α] [DecidableRel (fun a b : α => a < b)] (a b : α) : α :=
  if a > b then b else a

end minimum

namespace div

/-- Modelled from the spec: the functor `div` of `lazy_eval.h`, which is not
among the sources.  Spec 4.2: "`divide` (a / b — no special-case for b = 0;
inherits the numeric type's own division semantics". -/
def Map {α : Type} [Div α] (a b : α) : α := a / b

end div

/-! ## Shapes -/

/-- The class `ShapeBase<size_t>` (`Shape`): the extents and the cached length. -/
structure ShapeBase where
  /-- The member `std::vector<DType> shape`. -/
  shape : List Nat
  /-- The member `DType len`. -/
  len : Nat
  deriving DecidableEq, Repr

namespace ShapeBase

/-- The call `std::accumulate(first, last, init, std::multiplies<>())` with an
`int` accumulator over `size_t` elements: each product is formed in `size_t`
and stored back into the `int`. -/
def accumulate (l : List Nat) (init : Int) : Int :=
  l.foldl (fun acc x => toInt (toSizeT acc * x % SIZE_MOD)) init

/-- The constructor `ShapeBase(T ...args)` for a non-empty pack `a, as...`: the
extents are the arguments cast to `size_t`, the length is their left fold
under `*` in `size_t`. -/
def ctorArgs (a : Nat) (as : List Nat) : ShapeBase where
  shape := (a :: as).map (fun x => x % SIZE_MOD)
  len := as.foldl (fun acc x => acc * (x % SIZE_MOD) % SIZE_MOD) (a % SIZE_MOD)

/-- The constructor `ShapeBase()`. -/
def ctor : ShapeBase where
  shape := []
  len := 0

/-- The constructor `ShapeBase(std::initializer_list<DType> l)`. -/
def ctorList (l : List Nat) : ShapeBase where
  shape := l.map (fun x => x % SIZE_MOD)
  len := toSizeT (accumulate (l.map (fun x => x % SIZE_MOD)) 1)

/-- The operator `operator[]`: `shape.at(i)`. -/
def index (s : ShapeBase) (i : Nat) : Except Fault Nat :=
  match s.shape[i]? with
  | some d => .ok d
  | none => .error .out_of_range

/-- The operator `operator==`: only the extents are compared. -/
def eq (s other : ShapeBase) : Bool := s.shape == other.shape

/-- The operator `operator=(std::initializer_list<DType> l)`. -/
def assignList (_s : ShapeBase) (l : List Nat) : ShapeBase where
  shape := l.map (fun x => x % SIZE_MOD)
  len := toSizeT (accumulate (l.map (fun x => x % SIZE_MOD)) 1)

/-- The implicit move assignment `*this = std::move(src)`, as the pair of the
new `*this` and of what is left in `src`: the vector is moved out of `src`
(which is left empty), the scalar `len` is copied. -/
def assignMove (_s src : ShapeBase) : ShapeBase × ShapeBase :=
  (⟨src.shape, src.len⟩, ⟨[], src.len⟩)

/-- The member `Dims()`: `shape.size()`. -/
def Dims (s : ShapeBase) : Nat := s.shape.length

/-- The member `Size()`. -/
def Size (s : ShapeBase) : Nat := s.len

end ShapeBase

/-! ## The free store -/

/-- A pointer of the allocator: null, or the number of the block it points to. -/
abbrev Ptr := Option Nat

/-- The free store.  Block `b` is `none` once deallocated; a cell is `none`
until it is first written. -/
structure Heap (α : Type) where
  blocks : List (Option (List (Option α)))

namespace Heap

variable {α : Type}

/-- The store no allocation has been made from. -/
def empty : Heap α := ⟨[]⟩

/-- The read `p[i]`. -/
def load (h : Heap α) (p : Ptr) (i : Nat) : Except Fault α :=
  match p with
  | none => .error .undefined
  | some b =>
    match h.blocks[b]? with
    | some (some cells) =>
      match cells[i]? with
      | some (some v) => .ok v
      | _ => .error .undefined
    | _ => .error .undefined

/-- The write `p[i] = v`. -/
def store (h : Heap α) (p : Ptr) (i : Nat) (v : α) : Except Fault (Heap α) :=
  match p with
  | none => .error .undefined
  | some b =>
    match h.blocks[b]? with
    | some (some cells) =>
      if i < cells.length then .ok ⟨h.blocks.set b (some (cells.set i (some v)))⟩
      else .error .undefined
    | _ => .error .undefined

/-- The call `std::allocator_traits<Allocator>::allocate(alloc, n)`: a fresh
block of `n` uninitialised cells (memory is not bounded). -/
def allocate (h : Heap α) (n : Nat) : Ptr × Heap α :=
  (some h.blocks.length, ⟨h.blocks ++ [some (List.replicate n none)]⟩)

/-- The call `std::allocator_traits<Allocator>::deallocate(alloc, p, n)`: `p`
must be a live block obtained from `allocate(n)`. -/
def deallocate (h : Heap α) (b : Nat) (n : Nat) : Except Fault (Heap α) :=
  match h.blocks[b]? with
  | some (some cells) =>
    if cells.length = n then .ok ⟨h.blocks.set b none⟩ else .error .undefined
  | _ => .error .undefined

/-- The reads `p[i], p[i+1], ..., p[i+n-1]` of a source range. -/
def loadFrom (h : Heap α) (p : Ptr) : Nat → Nat → Except Fault (List α)
  | _, 0 => .ok []
  | i, n + 1 => do
    let v ← h.load p i
    let vs ← loadFrom h p (i + 1) n
    pure (v :: vs)

/-- The writes `p[i] = v0, p[i+1] = v1, ...` of `std::copy` and
`std::uninitialized_copy` into the range that starts at `p + i`. -/
def storeFrom (p : Ptr) : Heap α → Nat → List α → Except Fault (Heap α)
  | h, _, [] => .ok h
  | h, i, v :: vs => do
    let h' ← h.store p i v
    storeFrom p h' (i + 1) vs

/-- The call `std::copy(src, src + n, dst)` on two pointers of the store; the
destination must not lie in the source range. -/
def copy (h : Heap α) (src : Ptr) (n : Nat) (dst : Ptr) : Except Fault (Heap α) := do
  let vs ← h.loadFrom src 0 n
  if n ≠ 0 ∧ src = dst then .error .undefined
  else storeFrom dst h 0 vs

/-- The number of calls of `allocate` made so far. -/
def allocations (h : Heap α) : Nat := h.blocks.length

end Heap

/-! ## Tensors -/

/-- The class `Tensor<DType>`: the members `dptr` and `shape` (the allocator
`std::allocator<DType>` has no state). -/
structure Tensor where
  dptr : Ptr
  shape : ShapeBase
  deriving DecidableEq, Repr

namespace Tensor

variable {α : Type}

/-- The member `_M_allocate(n)`. -/
def _M_allocate (h : Heap α) (n : Nat) : Ptr × Heap α :=
  if n ≠ 0 then h.allocate n else (none, h)

/-- The member `_M_deallocate(p, n)`. -/
def _M_deallocate (h : Heap α) (p : Ptr) (n : Nat) : Except Fault (Heap α) :=
  match p with
  | some b => h.deallocate b n
  | none => .ok h

/-- The member `_M_allocate_and_copy(first, last)` on the range of an
initializer list (copying a scalar does not throw). -/
def _M_allocate_and_copy_list (h : Heap α) (l : List α) : Except Fault (Ptr × Heap α) := do
  let (result, h1) := _M_allocate h l.length
  let h2 ← Heap.storeFrom result h1 0 l
  pure (result, h2)

/-- The member `_M_allocate_and_copy(first, first + n)` on a range of the store. -/
def _M_allocate_and_copy (h : Heap α) (first : Ptr) (n : Nat) : Except Fault (Ptr × Heap α) := do
  let vs ← h.loadFrom first 0 n
  let (result, h1) := _M_allocate h n
  let h2 ← Heap.storeFrom result h1 0 vs
  pure (result, h2)

/-- The constructor `Tensor(Shape shape)`. -/
def ctorShape (h : Heap α) (shape : ShapeBase) : Tensor × Heap α :=
  let (p, h1) := _M_allocate h shape.Size
  (⟨p, shape⟩, h1)

/-- The constructor `Tensor(std::initializer_list<DType> l)`. -/
def ctorList (h : Heap α) (l : List α) : Except Fault (Tensor × Heap α) := do
  let shape := ShapeBase.ctor.assignList [l.length]
  let (p, h1) ← _M_allocate_and_copy_list h l
  pure (⟨p, shape⟩, h1)

/-- The destructor `~Tensor()`. -/
def dtor (h : Heap α) (t : Tensor) : Except Fault (Heap α) :=
  _M_deallocate h t.dptr t.shape.Size

/-- The copy constructor `Tensor(const Tensor& src)`. -/
def ctorCopy (h : Heap α) (src : Tensor) : Except Fault (Tensor × Heap α) := do
  let (p, h1) ← _M_allocate_and_copy h src.dptr src.shape.Size
  pure (⟨p, src.shape⟩, h1)

/-- The move constructor `Tensor(Tensor&& src)`, as the pair of the new tensor
and of what is left in `src`; `_M_allocate_on_move` takes the pointer and
nulls the one of `src`. -/
def ctorMove (src : Tensor) : Tensor × Tensor :=
  let (shape, left) := ShapeBase.ctor.assignMove src.shape
  (⟨src.dptr, shape⟩, ⟨none, left⟩)

/-- The operator `operator=(const Tensor& src)`. -/
def assign (h : Heap α) (t src : Tensor) : Except Fault (Tensor × Heap α) :=
  if t.shape.eq src.shape then do
    let h1 ← h.copy src.dptr src.shape.Size t.dptr
    pure (t, h1)
  else do
    let h1 ← _M_deallocate h t.dptr t.shape.Size
    let (p, h2) ← _M_allocate_and_copy h1 src.dptr src.shape.Size
    pure (⟨p, src.shape⟩, h2)

/-- The operator `operator=(std::initializer_list<DType> l)`. -/
def assignList (h : Heap α) (t : Tensor) (l : List α) : Except Fault (Tensor × Heap α) :=
  if t.shape.eq (ShapeBase.ctorArgs l.length []) then do
    let h1 ← Heap.storeFrom t.dptr h 0 l
    pure (t, h1)
  else do
    let h1 ← _M_deallocate h t.dptr t.shape.Size
    let shape := t.shape.assignList [l.length]
    let (p, h2) ← _M_allocate_and_copy_list h1 l
    pure (⟨p, shape⟩, h2)

/-- The operator `operator[](size_t i)`. -/
def get (h : Heap α) (t : Tensor) (i : Nat) : Except Fault α :=
  h.load t.dptr i

/-- The member `Eval(int i)`: `dptr[i]`. -/
def Eval (h : Heap α) (t : Tensor) (i : Int) : Except Fault α :=
  if i < 0 then .error .undefined else h.load t.dptr i.toNat

/-- The member `Shape_()`. -/
def Shape_ (t : Tensor) : ShapeBase := t.shape

end Tensor

/-! ## Expressions -/

/-- Modelled from the spec: the expression nodes of `lazy_eval.h`, which is not
among the sources.  A node is a leaf container, here a `Tensor` (which derives
from `expr::Exp<Tensor>`), or a binary composition node holding its two
children and the `Map` of its functor (spec 4.3). -/
inductive Exp (α : Type) where
  | leaf (t : Tensor)
  | binary (Map : α → α → α) (lhs rhs : Exp α)

/-- Modelled from the spec: the composition factory `F<OP>(lhs, rhs)` of
`lazy_eval.h` (spec 4.5), which builds the node without evaluating anything. -/
def F {α : Type} (Map : α → α → α) (lhs rhs : Exp α) : Exp α := Exp.binary Map lhs rhs

namespace Exp

variable {α : Type}

/-- Modelled from the spec: the member `Eval(i)` of a composition node of
`lazy_eval.h`, which is not among the sources (spec 4.3: "`Eval(i)` returns
`functor.Map(left.Eval(i), right.Eval(i))`").  On a leaf it is `Tensor::Eval`
of `tensor.h`. -/
def Eval (h : Heap α) : Exp α → Int → Except Fault α
  | leaf t, i => t.Eval h i
  | binary f lhs rhs, i => do
    let a ← lhs.Eval h i
    let b ← rhs.Eval h i
    pure (f a b)

/-- The leaf containers reachable from a node. -/
def leaves : Exp α → List Tensor
  | leaf t => [t]
  | binary _ lhs rhs => lhs.leaves ++ rhs.leaves

/-- The number of composition nodes on the longest path of a tree. -/
def depth : Exp α → Nat
  | leaf _ => 0
  | binary _ lhs rhs => max lhs.depth rhs.depth + 1

end Exp

namespace Tensor

variable {α : Type}

/-- The loop `for (int i = 0; i < shape.Size(); ++i) dptr[i] = src_.Eval(i);`
from the value `i` of the counter on; `++i` on `INT_MAX` overflows. -/
def assignLoop (t : Tensor) (src : Exp α) : Nat → Nat → Heap α → Except Fault (Heap α)
  | 0, _, _ => .error .fuel
  | fuel + 1, i, h =>
    if i < t.shape.Size then do
      let v ← src.Eval h (i : Int)
      let h1 ← h.store t.dptr i v
      if i = INT_MAX then .error .undefined
      else assignLoop t src fuel (i + 1) h1
    else .ok h

/-- The operator `operator=(const expr::Exp<EType>& src)`. -/
def assignExp (h : Heap α) (t : Tensor) (src : Exp α) : Except Fault (Tensor × Heap α) := do
  let h1 ← assignLoop t src (t.shape.Size + 1) 0 h
  pure (t, h1)

/-- The tensor `t` is a container of length `cs.length` whose buffer has the
cells `cs`, written or not: its `Size()` is `cs.length` and its buffer is a
live block with these cells (no buffer at all when the length is 0 and the
pointer is null). -/
def Buffer (h : Heap α) (t : Tensor) (cs : List (Option α)) : Prop :=
  t.shape.Size = cs.length ∧
    match t.dptr with
    | none => cs = []
    | some b => h.blocks[b]? = some (some cs)

/-- The tensor `t` is a container holding exactly the elements `xs`: its
length is `xs.length` and its buffer is a live block with these contents (no
buffer at all when the length is 0 and the pointer is null). -/
def Holds (h : Heap α) (t : Tensor) (xs : List α) : Prop :=
  t.shape.Size = xs.length ∧
    match t.dptr with
    | none => xs = []
    | some b => h.blocks[b]? = some (some (xs.map some))

end Tensor

end mou

namespace mou

/-! ## Concrete stores -/

/-- The containers of `test_lazy_eval.cc`, built as tensors: `A{1, 2, 3}`,
`B{2, 3, 4}`, `C{3, 4, 5}`, in this order, in a store not used before. -/
def testSetup : Except Fault (Tensor × Tensor × Tensor × Heap Flt) := do
  let (A, h1) ← Tensor.ctorList Heap.empty [1, 2, 3]
  let (B, h2) ← Tensor.ctorList h1 [2, 3, 4]
  let (C, h3) ← Tensor.ctorList h2 [3, 4, 5]
  pure (A, B, C, h3)

/-- The store `testSetup` ends in. -/
def testStore : Heap Flt :=
  ⟨[some [some 1, some 2, some 3], some [some 2, some 3, some 4], some [some 3, some 4, some 5]]⟩

/-- The tensor `A` of `testSetup`. -/
def testA : Tensor := ⟨some 0, ⟨[3], 3⟩⟩

/-- The tensor `B` of `testSetup`. -/
def testB : Tensor := ⟨some 1, ⟨[3], 3⟩⟩

/-- The tensor `C` of `testSetup`. -/
def testC : Tensor := ⟨some 2, ⟨[3], 3⟩⟩

/-- The length `2 ^ 31 = INT_MAX + 1`. -/
def bigLen : Nat := 2 ^ 31

/-- The store of three buffers of `bigLen` zeros each. -/
def bigStore : Heap Flt :=
  ⟨[some ((List.replicate bigLen (0 : Flt)).map some),
    some ((List.replicate bigLen (0 : Flt)).map some),
    some ((List.replicate bigLen (0 : Flt)).map some)]⟩

/-- The tensor of shape `Shape(2147483648)` on block 0 of `bigStore`. -/
def bigA : Tensor := ⟨some 0, ShapeBase.ctorArgs bigLen []⟩

/-- The tensor of shape `Shape(2147483648)` on block 1 of `bigStore`. -/
def bigB : Tensor := ⟨some 1, ShapeBase.ctorArgs bigLen []⟩

/-- The tensor of shape `Shape(2147483648)` on block 2 of `bigStore`. -/
def bigC : Tensor := ⟨some 2, ShapeBase.ctorArgs bigLen []⟩

/-- The store of the one-element containers `A{0}`, `B{inf}`, `C{inf}`. -/
def infStore : Heap Flt := ⟨[some [some 0], some [some Flt.pinf], some [some Flt.pinf]]⟩

/-- The tensor `A` of `infStore`. -/
def infA : Tensor := ⟨some 0, ⟨[1], 1⟩⟩

/-- The tensor `B` of `infStore`. -/
def infB : Tensor := ⟨some 1, ⟨[1], 1⟩⟩

/-- The tensor `C` of `infStore`. -/
def infC : Tensor := ⟨some 2, ⟨[1], 1⟩⟩

/-- The store `testStore` with other elements than at index 1 in `B` and `C`. -/
def testStore2 : Heap Flt :=
  ⟨[some [some 1, some 2, some 3], some [some 7, some 3, some 8], some [some 9, some 4, some 0]]⟩

/-- The store of a two-element target and of the three-element `B` and `C` of the test. -/
def mixStore : Heap Flt :=
  ⟨[some [some 9, some 9], some [some 2, some 3, some 4], some [some 3, some 4, some 5]]⟩

/-- The two-element target of `mixStore`. -/
def mixA : Tensor := ⟨some 0, ⟨[2], 2⟩⟩

namespace Tensor

/-- The state of a tensor the members rely on: a non-null `dptr` is a live
block of `Size()` elements, a null `dptr` goes with no extents (a moved-from
tensor) or with `Size() == 0`; and a one-dimensional shape `(m)` with
`m < 2 ^ 31` has `Size() == m`.  A tensor built by `Tensor(Shape)` on a shape
of either form is in this state, `Tensor(Shape{4294967299})` (extent
4294967299, `Size()` 3, a buffer of 3 elements) included, and so is a
moved-from tensor. -/
def Valid {α : Type} (h : Heap α) (t : Tensor) : Prop :=
  (match t.dptr with
    | none => t.shape.shape = [] ∨ t.shape.Size = 0
    | some b => ∃ cs, h.blocks[b]? = some (some cs) ∧ cs.length = t.shape.Size) ∧
  ∀ m, m < 2 ^ 31 → t.shape.shape = [m] → t.shape.Size = m

end Tensor

/-- The statements `Tensor<float> a{1, 2, 3}; Tensor<float> b(std::move(a));
Tensor<float> c{Shape()}; a = c;`, with the final `a`, `c` and store. -/
def movedFromScenario : Except Fault (Tensor × Tensor × Heap Flt) := do
  let (a, h1) ← Tensor.ctorList Heap.empty [1, 2, 3]
  let (_, a1) := Tensor.ctorMove a
  let (c, h2) := Tensor.ctorShape h1 ShapeBase.ctor
  let (a2, h3) ← Tensor.assign h2 a1 c
  pure (a2, c, h3)

/-- The statements `Tensor<float> t(Shape(2, 3)); t = {1, 2, 3, 4, 5, 6};`, with
the tensor and the store before and after the assignment. -/
def reshapedScenario : Except Fault ((Tensor × Heap Flt) × (Tensor × Heap Flt)) := do
  let (t, h1) := Tensor.ctorShape Heap.empty (ShapeBase.ctorArgs 2 [3])
  let (t1, h2) ← Tensor.assignList h1 t [1, 2, 3, 4, 5, 6]
  pure ((t, h1), (t1, h2))

/-! ## Partial sizes, moves and reshapes -/

namespace ShapeBase

/-- The member `Size(size_t i)`: `shape.at(i)`. -/
def SizeAt (s : ShapeBase) (i : Nat) : Except Fault Nat :=
  match s.shape[i]? with
  | some d => .ok d
  | none => .error .out_of_range

/-- The loop `for (size_t i = start; i < end; ++i) sz *= shape.at(i);` of
`Size(size_t start, size_t end)`, from the values `i` and `sz` on; the product
is formed in `size_t`. -/
def SizeLoop (s : ShapeBase) (stop : Nat) : Nat → Nat → Nat → Except Fault Nat
  | 0, _, _ => .error .fuel
  | fuel + 1, i, sz =>
    if i < stop then
      match s.shape[i]? with
      | some d => SizeLoop s stop fuel (i + 1) (sz * d % SIZE_MOD)
      | none => .error .out_of_range
    else .ok sz

/-- The member `Size(size_t start, size_t end)`. -/
def SizeRange (s : ShapeBase) (start stop : Nat) : Except Fault Nat :=
  SizeLoop s stop (stop - start + 1) start 1

end ShapeBase

/-- The macro `assert(c)` of `<cassert>`: nothing when `NDEBUG` is defined,
else a fault when the condition is false. -/
def assert (NDEBUG : Bool) (c : Bool) : Except Fault Unit :=
  if NDEBUG || c then .ok () else .error .assertion

namespace Tensor

/-- The move assignment `operator=(Tensor&& src)` for a `src` that is another
object than `*this`, as the new `*this` and what is left in `src`, with the
new store. -/
def assignMove {α : Type} (h : Heap α) (t src : Tensor) :
    Except Fault ((Tensor × Tensor) × Heap α) := do
  let h1 ← _M_deallocate h t.dptr t.shape.Size
  let (shape, left) := t.shape.assignMove src.shape
  pure ((⟨src.dptr, shape⟩, ⟨none, left⟩), h1)

/-- The member `Reshape(const Shape& src)`, as the fault it stops with (if any)
and the tensor it stops with. -/
def Reshape (NDEBUG : Bool) (t : Tensor) (src : ShapeBase) : Option Fault × Tensor :=
  match assert NDEBUG (t.shape.Size == src.Size) with
  | .error f => (some f, t)
  | .ok _ => (none, ⟨t.dptr, src⟩)

/-- The member `Reshape(T ...args)` for a non-empty pack `a, as...`. -/
def ReshapeArgs (NDEBUG : Bool) (t : Tensor) (a : Nat) (as : List Nat) : Option Fault × Tensor :=
  let src := ShapeBase.ctorArgs a as
  match assert NDEBUG (t.shape.Size == src.Size) with
  | .error f => (some f, t)
  | .ok _ => (none, ⟨t.dptr, src⟩)

/-- The member `ReshapeLike(const Tensor<T>& other)`. -/
def ReshapeLike (NDEBUG : Bool) (t other : Tensor) : Option Fault × Tensor :=
  match assert NDEBUG (t.shape.Size == other.shape.Size) with
  | .error f => (some f, t)
  | .ok _ => (none, ⟨t.dptr, other.shape⟩)

/-- The loop of `operator=(const expr::Exp<EType>&)` once more, as the fault
it stops with (if any) and the store it stops in. -/
def assignTrace {α : Type} (t : Tensor) (src : Exp α) : Nat → Nat → Heap α → Option Fault × Heap α
  | 0, _, h => (some .fuel, h)
  | fuel + 1, i, h =>
    if i < t.shape.Size then
      match src.Eval h (i : Int) with
      | .error f => (some f, h)
      | .ok v =>
        match h.store t.dptr i v with
        | .error f => (some f, h)
        | .ok h1 =>
          if i = INT_MAX then (some .undefined, h1)
          else assignTrace t src fuel (i + 1) h1
    else (none, h)

end Tensor

/-- The statements `Tensor<float> b{1, 2, 3}; Tensor<float> c(std::move(b));`,
with the final `c`, `b` and store. -/
def moveScenario : Except Fault (Tensor × Tensor × Heap Flt) := do
  let (b, h1) ← Tensor.ctorList Heap.empty [1, 2, 3]
  let (c, b1) := Tensor.ctorMove b
  pure (c, b1, h1)

/-- The statements `Tensor<float> b{1, 2, 3}; Tensor<float> d{9}; d = std::move(b);`,
with the final `d`, `b` and store. -/
def moveAssignScenario : Except Fault (Tensor × Tensor × Heap Flt) := do
  let (b, h1) ← Tensor.ctorList Heap.empty [1, 2, 3]
  let (d, h2) ← Tensor.ctorList h1 [9]
  let ((d1, b1), h3) ← Tensor.assignMove h2 d b
  pure (d1, b1, h3)

/-- The composition of depth 3 `F<div>(B, F<maximum>(C, F<minimum>(C, B)))` on
the containers of the test. -/
def testDeep : Exp Flt :=
  F div.Map (.leaf testB) (F maximum.Map (.leaf testC) (F minimum.Map (.leaf testC) (.leaf testB)))

/-! ## Cells, long containers and the vectors of the test -/

namespace Heap

/-- The cell `i` of block `b`: `none` if there is none (the block is not
live, or has `i` cells or fewer), else its content, `none` until written. -/
def cell {α : Type} (h : Heap α) (b i : Nat) : Option (Option α) :=
  match h.blocks[b]? with
  | some (some cells) => cells[i]?
  | _ => none

end Heap

/-- Modelled from the spec: the leaf container `Vec` of `lazy_eval.h`, which is
not among the sources: a flat buffer of `len` elements at `dptr` (spec 2, 4.4
and 6; the test builds it with `Vec<float> A(sa, n)` and reads `A.dptr[i]`). -/
structure Vec where
  /-- The buffer. -/
  dptr : Ptr
  /-- The length of the container. -/
  len : Nat

namespace Vec

variable {α : Type}

/-- Modelled from the spec: a vector as a leaf of an expression.  Its `Eval(i)`
is the direct indexed read `dptr[i]` (spec 4.4), which is what `Tensor::Eval`
does on a tensor with this buffer and length. -/
def toTensor (v : Vec) : Tensor := ⟨v.dptr, ⟨[v.len], v.len⟩⟩

/-- Modelled from the spec: the leaf node of a vector in an expression tree. -/
def leaf (v : Vec) : Exp α := Exp.leaf v.toTensor

/-- Modelled from the spec: the indexed read `operator[](i)` (spec 4.4), the
`dptr[i]` of the test. -/
def get (h : Heap α) (v : Vec) (i : Nat) : Except Fault α :=
  h.load v.dptr i

/-- Modelled from the spec: the pass of `target = expr` (spec 4.4: "for `i`
from `0` to `target.length - 1`, compute `target[i] = expr.Eval(i)`"), with
`k` indices left from the index `i` on. -/
def assignFrom (v : Vec) (src : Exp α) : Nat → Nat → Heap α → Except Fault (Heap α)
  | 0, _, h => .ok h
  | k + 1, i, h => do
    let x ← src.Eval h (i : Int)
    let h1 ← h.store v.dptr i x
    assignFrom v src k (i + 1) h1

/-- Modelled from the spec: assignment from an expression, `target = expr`
(spec 4.4), the pass over the `len` indices of the target. -/
def assignExp (h : Heap α) (v : Vec) (src : Exp α) : Except Fault (Vec × Heap α) := do
  let h1 ← assignFrom v src v.len 0 h
  pure (v, h1)

/-- The vector `v` is a container of length `cs.length` whose buffer has the
cells `cs`, written or not. -/
def Buffer (h : Heap α) (v : Vec) (cs : List (Option α)) : Prop :=
  v.toTensor.Buffer h cs

/-- The vector `v` is a container holding exactly the elements `xs`. -/
def Holds (h : Heap α) (v : Vec) (xs : List α) : Prop :=
  v.toTensor.Holds h xs

end Vec

/-- The vector `Vec<float> A(sa, n)` of the test, on block 0 of `testStore`. -/
def vecA : Vec := ⟨some 0, 3⟩

/-- The vector `Vec<float> B(sb, n)` of the test, on block 1 of `testStore`. -/
def vecB : Vec := ⟨some 1, 3⟩

/-- The vector `Vec<float> C(sc, n)` of the test, on block 2 of `testStore`. -/
def vecC : Vec := ⟨some 2, 3⟩

end mou

/-! ## Lemmas on the free store -/

namespace mou

namespace Heap

variable {α : Type}

theorem load_block {h : Heap α} {b : Nat} {cs : List (Option α)}
    (hb : h.blocks[b]? = some (some cs)) {i : Nat} {v : α} (hv : cs[i]? = some (some v)) :
    h.load (some b) i = .ok v := by
  simp [load, hb, hv]

theorem store_block {h : Heap α} {b : Nat} {cs : List (Option α)}
    (hb : h.blocks[b]? = some (some cs)) {i : Nat} (hi : i < cs.length) (v : α) :
    h.store (some b) i v = .ok ⟨h.blocks.set b (some (cs.set i (some v)))⟩ := by
  simp [store, hb, hi]

/-- A store fails only by undefined behaviour. -/
theorem store_error {h : Heap α} {p : Ptr} {i : Nat} {v : α} {e : Fault}
    (hs : h.store p i v = .error e) : e = .undefined := by
  unfold store at hs
  split at hs
  · cases hs; rfl
  · split at hs
    · split at hs
      · cases hs
      · cases hs; rfl
    · cases hs; rfl

/-- A load fails only by undefined behaviour. -/
theorem load_error {h : Heap α} {p : Ptr} {i : Nat} {e : Fault}
    (hs : h.load p i = .error e) : e = .undefined := by
  unfold load at hs
  split at hs
  · cases hs; rfl
  · split at hs
    · split at hs
      · cases hs
      · cases hs; rfl
    · cases hs; rfl

/-- A successful store changes one cell of one live block. -/
theorem store_ok {h h1 : Heap α} {p : Ptr} {k : Nat} {v : α} (hs : h.store p k v = .ok h1) :
    ∃ b cs, p = some b ∧ h.blocks[b]? = some (some cs) ∧ k < cs.length ∧
      h1 = ⟨h.blocks.set b (some (cs.set k (some v)))⟩ := by
  unfold store at hs
  split at hs
  · cases hs
  · rename_i b
    split at hs
    · rename_i cs hb
      split at hs
      · rename_i hk
        cases hs
        exact ⟨b, cs, rfl, hb, hk, rfl⟩
      · cases hs
    · cases hs

/-- A store at index `k` is not seen by a load at another index. -/
theorem load_store_ne {h h1 : Heap α} {p : Ptr} {k : Nat} {v : α}
    (hs : h.store p k v = .ok h1) (q : Ptr) {j : Nat} (hj : j ≠ k) :
    h1.load q j = h.load q j := by
  obtain ⟨b, cs, rfl, hb, hk, rfl⟩ := store_ok hs
  cases q with
  | none => rfl
  | some c =>
    by_cases hcb : c = b
    · subst hcb
      have hlt : c < h.blocks.length := by
        rcases List.getElem?_eq_some.mp hb with ⟨hlt, _⟩
        exact hlt
      simp [load, hb, List.getElem?_set_self hlt, List.getElem?_set_ne (Ne.symm hj)]
    · simp [load, List.getElem?_set_ne (Ne.symm hcb)]

end Heap

/-! ## Lemmas on evaluation -/

namespace Exp

variable {α : Type}

/-- Evaluation fails only by undefined behaviour. -/
theorem Eval_error (h : Heap α) (e : Exp α) (i : Int) {err : Fault}
    (he : e.Eval h i = .error err) : err = .undefined := by
  induction e with
  | leaf t =>
    simp only [Eval, Tensor.Eval] at he
    split at he
    · cases he; rfl
    · exact Heap.load_error he
  | binary f lhs rhs ihl ihr =>
    simp only [Eval, bind, Except.bind] at he
    cases hl : lhs.Eval h i with
    | error x =>
      rw [hl] at he
      cases he
      exact ihl hl
    | ok a =>
      rw [hl] at he
      cases hr : rhs.Eval h i with
      | error x =>
        rw [hr] at he
        cases he
        exact ihr hr
      | ok c =>
        rw [hr] at he
        cases he

/-- Two stores that agree at index `i` on every leaf give the same value at `i`. -/
theorem Eval_congr (h1 h2 : Heap α) (e : Exp α) (i : Int)
    (hl : ∀ t ∈ e.leaves, t.Eval h1 i = t.Eval h2 i) : e.Eval h1 i = e.Eval h2 i := by
  induction e with
  | leaf t => exact hl t (by simp [leaves])
  | binary f lhs rhs ihl ihr =>
    have h1' := ihl (fun t ht => hl t (by simp [leaves, ht]))
    have h2' := ihr (fun t ht => hl t (by simp [leaves, ht]))
    simp only [Eval, h1', h2']

/-- A store at index `k` is not seen by an evaluation at another index. -/
theorem Eval_store_ne {h h1 : Heap α} {p : Ptr} {k : Nat} {v : α}
    (hs : h.store p k v = .ok h1) (e : Exp α) {j : Nat} (hj : j ≠ k) :
    e.Eval h1 (j : Int) = e.Eval h (j : Int) := by
  apply Eval_congr
  intro t _
  simp [Tensor.Eval, Heap.load_store_ne hs t.dptr hj]

end Exp

end mou

/-! ## Lemmas on the materialization loop -/

namespace mou

namespace Heap

variable {α : Type}

theorem set_block_self {h : Heap α} {b : Nat} {x : Option (List (Option α))}
    (hb : h.blocks[b]? = some x) : (⟨h.blocks.set b x⟩ : Heap α) = h := by
  cases h with
  | mk bl =>
    congr 1
    apply List.ext_getElem?
    intro n
    by_cases hn : b = n
    · subst hn
      rw [List.getElem?_set_self' ]
      simp only at hb
      simp [hb]
    · rw [List.getElem?_set_ne hn]

end Heap

namespace Tensor

variable {α : Type}

/-- The loop from the value `i` of the counter on, for a target whose buffer
is the live block `b`: it ends, and rewrites the cells `i .. Size()-1` of `b`
with the values the expression had on entry. -/
theorem assignLoop_ok (t : Tensor) (e : Exp α) (f : Nat → α) (b : Nat) (hp : t.dptr = some b)
    (hn : t.shape.Size ≤ INT_MAX) :
    ∀ (fuel i : Nat) (h : Heap α) (cs : List (Option α)),
      t.shape.Size - i < fuel → i ≤ t.shape.Size → h.blocks[b]? = some (some cs) →
      t.shape.Size ≤ cs.length →
      (∀ j, i ≤ j → j < t.shape.Size → e.Eval h (j : Int) = .ok (f j)) →
      ∃ cs', t.assignLoop e fuel i h = .ok ⟨h.blocks.set b (some cs')⟩ ∧
        cs'.length = cs.length ∧
        (∀ j, i ≤ j → j < t.shape.Size → cs'[j]? = some (some (f j))) ∧
        (∀ j, (j < i ∨ t.shape.Size ≤ j) → cs'[j]? = cs[j]?) := by
  intro fuel
  induction fuel with
  | zero => intro i h cs hfuel; omega
  | succ fuel ih =>
    intro i h cs hfuel hi hb hlen hev
    by_cases hlt : i < t.shape.Size
    · have hst := Heap.store_block hb (lt_of_lt_of_le hlt hlen) (f i)
      have hne : i ≠ INT_MAX := by omega
      have hblt : b < h.blocks.length := by
        rcases List.getElem?_eq_some.mp hb with ⟨hblt, _⟩
        exact hblt
      have hev1 : ∀ j, i + 1 ≤ j → j < t.shape.Size →
          e.Eval (⟨h.blocks.set b (some (cs.set i (some (f i))))⟩ : Heap α) (j : Int)
            = .ok (f j) := by
        intro j hj hjn
        rw [Exp.Eval_store_ne hst e (by omega : j ≠ i)]
        exact hev j (by omega) hjn
      obtain ⟨cs', hrun, hlen', hnew, hold⟩ :=
        ih (i + 1) ⟨h.blocks.set b (some (cs.set i (some (f i))))⟩ (cs.set i (some (f i)))
          (by omega) (by omega) (by simp [List.getElem?_set_self hblt]) (by simpa using hlen) hev1
      refine ⟨cs', ?_, by simpa using hlen', ?_, ?_⟩
      · simp only [assignLoop, hlt, if_true, hev i (le_refl i) hlt, hp, hst, bind, Except.bind,
          hne, if_false]
        rw [hrun]; simp only [List.set_set]
      · intro j hj hjn
        by_cases hji : j = i
        · subst hji
          rw [hold j (Or.inl (by omega))]
          simp [List.getElem?_set_self (lt_of_lt_of_le hlt hlen)]
        · exact hnew j (by omega) hjn
      · intro j hj
        rw [hold j (by omega)]
        exact List.getElem?_set_ne (by omega)
    · refine ⟨cs, ?_, rfl, ?_, ?_⟩
      · simp only [assignLoop, hlt, if_false]
        rw [Heap.set_block_self hb]
      · intro j hj hjn; omega
      · intro j _; rfl

/-- The loop on a target of length `2 ^ 31` or more: whatever the expression,
it ends in undefined behaviour (at the latest when `++i` overflows). -/
theorem assignLoop_overflow (t : Tensor) (e : Exp α) (hn : INT_MAX < t.shape.Size) :
    ∀ (fuel i : Nat) (h : Heap α), INT_MAX - i < fuel → i ≤ INT_MAX →
      t.assignLoop e fuel i h = .error .undefined := by
  intro fuel
  induction fuel with
  | zero => intro i h hfuel; omega
  | succ fuel ih =>
    intro i h hfuel hi
    have hlt : i < t.shape.Size := by omega
    simp only [assignLoop, hlt, if_true, bind, Except.bind]
    cases hv : e.Eval h (i : Int) with
    | error x => simp [Exp.Eval_error h e _ hv]
    | ok v =>
      simp only
      cases hs : h.store t.dptr i v with
      | error x => simp [Heap.store_error hs]
      | ok h1 =>
        simp only
        by_cases hmax : i = INT_MAX
        · simp [hmax]
        · simp only [hmax, if_false]
          exact ih (i + 1) h1 (by omega) (by omega)

/-- The fuel `Size() + 1` that `operator=` gives the loop is never used up. -/
theorem assignLoop_fuel (t : Tensor) (e : Exp α) :
    ∀ (fuel i : Nat) (h : Heap α), t.shape.Size - i < fuel →
      t.assignLoop e fuel i h ≠ .error .fuel := by
  intro fuel
  induction fuel with
  | zero => intro i h hfuel; omega
  | succ fuel ih =>
    intro i h hfuel
    by_cases hlt : i < t.shape.Size
    · simp only [assignLoop, hlt, if_true, bind, Except.bind]
      cases hv : e.Eval h (i : Int) with
      | error x => simp [Exp.Eval_error h e _ hv]
      | ok v =>
        simp only
        cases hs : h.store t.dptr i v with
        | error x => simp [Heap.store_error hs]
        | ok h1 =>
          simp only
          by_cases hmax : i = INT_MAX
          · simp [hmax]
          · simp only [hmax, if_false]
            exact ih (i + 1) h1 (by omega)
    · simp [assignLoop, hlt]

/-- The operator `operator=(const expr::Exp<EType>&)` always ends: its result
is never the fault of a loop that ran out of fuel. -/
theorem assignExp_fuel (h : Heap α) (t : Tensor) (e : Exp α) :
    t.assignExp h e ≠ .error .fuel := by
  have hl := assignLoop_fuel t e (t.shape.Size + 1) 0 h (by omega)
  simp only [assignExp, bind, Except.bind]
  cases hr : t.assignLoop e (t.shape.Size + 1) 0 h with
  | error x =>
    intro hx
    simp only at hx
    cases hx
    exact hl hr
  | ok h1 =>
    intro hx
    simp [pure, Except.pure] at hx

theorem assignExp_overflow (h : Heap α) (t : Tensor) (e : Exp α) (hn : INT_MAX < t.shape.Size) :
    t.assignExp h e = .error .undefined := by
  simp only [assignExp, bind, Except.bind]
  rw [assignLoop_overflow t e hn (t.shape.Size + 1) 0 h (by omega) (by omega)]

end Tensor

end mou

/-! ## The run of the materialization loop -/

namespace mou

namespace Heap

variable {α : Type}

/-- A store allocates nothing, releases nothing and changes one block only. -/
theorem store_frame {h h1 : Heap α} {p : Ptr} {k : Nat} {v : α} (hs : h.store p k v = .ok h1) :
    h1.blocks.length = h.blocks.length ∧
      (∀ c : Nat, h1.blocks[c]? = some none ↔ h.blocks[c]? = some none) ∧
      (∀ c : Nat, p ≠ some c → h1.blocks[c]? = h.blocks[c]?) := by
  obtain ⟨b, cs, rfl, hb, _, rfl⟩ := store_ok hs
  have hblt : b < h.blocks.length := by
    rcases List.getElem?_eq_some.mp hb with ⟨hblt, _⟩
    exact hblt
  refine ⟨by simp, ?_, ?_⟩
  · intro c
    by_cases hc : b = c
    · subst hc
      simp [List.getElem?_set_self hblt, hb]
    · simp [List.getElem?_set_ne hc]
  · intro c hc
    have hbc : b ≠ c := fun hbc => hc (by rw [hbc])
    simp [List.getElem?_set_ne hbc]

end Heap

namespace Tensor

variable {α : Type}

/-- The two embeddings of the loop agree. -/
theorem assignLoop_trace (t : Tensor) (e : Exp α) :
    ∀ (fuel i : Nat) (h : Heap α),
      t.assignLoop e fuel i h =
        match (t.assignTrace e fuel i h).1 with
        | none => .ok (t.assignTrace e fuel i h).2
        | some f => .error f := by
  intro fuel
  induction fuel with
  | zero => intro i h; rfl
  | succ fuel ih =>
    intro i h
    by_cases hlt : i < t.shape.Size
    · simp only [assignLoop, assignTrace, hlt, if_true, bind, Except.bind]
      cases hv : e.Eval h (i : Int) with
      | error x => rfl
      | ok v =>
        simp only
        cases hs : h.store t.dptr i v with
        | error x => rfl
        | ok h1 =>
          simp only
          by_cases hmax : i = INT_MAX
          · simp [hmax]
          · simp only [hmax, if_false]
            exact ih (i + 1) h1
    · simp [assignLoop, assignTrace, hlt]

/-- Wherever the loop stops, it has allocated nothing, released nothing and
changed no block but the one of the target. -/
theorem assignTrace_frame (t : Tensor) (e : Exp α) :
    ∀ (fuel i : Nat) (h : Heap α),
      (t.assignTrace e fuel i h).2.blocks.length = h.blocks.length ∧
      (∀ c : Nat, (t.assignTrace e fuel i h).2.blocks[c]? = some none ↔ h.blocks[c]? = some none) ∧
      (∀ c : Nat, t.dptr ≠ some c → (t.assignTrace e fuel i h).2.blocks[c]? = h.blocks[c]?) := by
  intro fuel
  induction fuel with
  | zero => intro i h; exact ⟨rfl, fun _ => Iff.rfl, fun _ _ => rfl⟩
  | succ fuel ih =>
    intro i h
    by_cases hlt : i < t.shape.Size
    · simp only [assignTrace, hlt, if_true]
      cases hv : e.Eval h (i : Int) with
      | error x => exact ⟨rfl, fun _ => Iff.rfl, fun _ _ => rfl⟩
      | ok v =>
        simp only
        cases hs : h.store t.dptr i v with
        | error x => exact ⟨rfl, fun _ => Iff.rfl, fun _ _ => rfl⟩
        | ok h1 =>
          simp only
          obtain ⟨f1, f2, f3⟩ := Heap.store_frame hs
          by_cases hmax : i = INT_MAX
          · simp only [hmax, if_true]
            exact ⟨f1, f2, f3⟩
          · simp only [hmax, if_false]
            obtain ⟨g1, g2, g3⟩ := ih (i + 1) h1
            exact ⟨g1.trans f1, fun c => (g2 c).trans (f2 c),
              fun c hc => (g3 c hc).trans (f3 c hc)⟩
    · simp [assignTrace, hlt]

end Tensor

namespace Tensor

variable {α : Type}

/-- The result of `operator=(const expr::Exp<EType>&)` is that of the run of
its loop: the target and the store the loop ends in, or the fault it stops at. -/
theorem assignExp_trace (h : Heap α) (t : Tensor) (e : Exp α) :
    t.assignExp h e =
      (match (t.assignTrace e (t.shape.Size + 1) 0 h).1 with
        | none => .ok (t, (t.assignTrace e (t.shape.Size + 1) 0 h).2)
        | some f => .error f) := by
  simp only [assignExp, bind, Except.bind, assignLoop_trace]
  cases (t.assignTrace e (t.shape.Size + 1) 0 h).1 <;> rfl

end Tensor

end mou

/-! ## Containers and expression assignment -/

namespace mou

namespace Tensor

variable {α : Type}

/-- Reading a container through `operator[]`. -/
theorem Holds.get {h : Heap α} {t : Tensor} {xs : List α} (ht : t.Holds h xs) {i : Nat} {x : α}
    (hx : xs[i]? = some x) : t.get h i = .ok x := by
  obtain ⟨_, hbuf⟩ := ht
  cases hp : t.dptr with
  | none =>
    rw [hp] at hbuf
    simp only at hbuf
    subst hbuf
    simp at hx
  | some b =>
    rw [hp] at hbuf
    simp only at hbuf
    simp only [Tensor.get, hp]
    exact Heap.load_block hbuf (by simp [hx])

/-- Reading a container through `Eval`. -/
theorem Holds.Eval {h : Heap α} {t : Tensor} {xs : List α} (ht : t.Holds h xs) {i : Nat} {x : α}
    (hx : xs[i]? = some x) : t.Eval h (i : Int) = .ok x := by
  have hg := ht.get hx
  simp only [Tensor.get] at hg
  simp [Tensor.Eval, hg]

/-- Every index below the length of a container can be read. -/
theorem Holds.get_lt {h : Heap α} {t : Tensor} {xs : List α} (ht : t.Holds h xs) {i : Nat}
    (hi : i < xs.length) : ∃ x, xs[i]? = some x ∧ t.get h i = .ok x ∧ t.Eval h (i : Int) = .ok x :=
  ⟨xs[i], List.getElem?_eq_getElem hi, ht.get (List.getElem?_eq_getElem hi),
    ht.Eval (List.getElem?_eq_getElem hi)⟩

/-- A container that holds elements is a container with these cells. -/
theorem Holds.buffer {h : Heap α} {t : Tensor} {xs : List α} (ht : t.Holds h xs) :
    t.Buffer h (xs.map some) := by
  refine ⟨by rw [List.length_map]; exact ht.1, ?_⟩
  have hbuf := ht.2
  cases hp : t.dptr with
  | none =>
    rw [hp] at hbuf
    simp only at hbuf ⊢
    rw [hbuf]
    rfl
  | some b =>
    rw [hp] at hbuf
    exact hbuf

/-- Expression assignment to a container of length at most `INT_MAX` from an
expression that can be evaluated at every index below that length: the
assignment ends, the target keeps its pointer and shape, holds at every index
the value the expression had before the assignment, and no other block of the
store changes. -/
theorem assignExp_spec (h : Heap α) (t : Tensor) (e : Exp α) (ts : List (Option α))
    (ht : t.Buffer h ts) (hn : ts.length ≤ INT_MAX)
    (hev : ∀ j, j < ts.length → ∃ v, e.Eval h (j : Int) = .ok v) :
    ∃ h' xs, t.assignExp h e = .ok (t, h') ∧ t.Holds h' xs ∧ xs.length = ts.length ∧
      (∀ j, j < ts.length → t.get h' j = e.Eval h (j : Int)) ∧
      h'.blocks.length = h.blocks.length ∧
      (∀ c, t.dptr ≠ some c → h'.blocks[c]? = h.blocks[c]?) := by
  have hsz : t.shape.Size = ts.length := ht.1
  by_cases h0 : ts.length = 0
  · have hnil : ts = [] := List.length_eq_zero.mp h0
    have hH : t.Holds h [] := by
      refine ⟨by rw [hsz, h0]; rfl, ?_⟩
      have hbuf := ht.2
      cases hp : t.dptr with
      | none => rfl
      | some b =>
        rw [hp] at hbuf
        simp only at hbuf ⊢
        rw [hbuf, hnil]
        rfl
    refine ⟨h, [], ?_, hH, by rw [h0]; rfl, ?_, rfl, fun _ _ => rfl⟩
    · simp [assignExp, assignLoop, hsz, h0, bind, Except.bind, pure, Except.pure]
    · intro j hj; omega
  · obtain ⟨v0, _⟩ := hev 0 (by omega)
    have hev' : ∀ j, ∃ v, j < ts.length → e.Eval h (j : Int) = .ok v := by
      intro j
      by_cases hj : j < ts.length
      · obtain ⟨v, hv⟩ := hev j hj
        exact ⟨v, fun _ => hv⟩
      · exact ⟨v0, fun hj' => absurd hj' hj⟩
    choose f hf using hev'
    obtain ⟨_, hbuf⟩ := ht
    cases hp : t.dptr with
    | none =>
      rw [hp] at hbuf
      simp only at hbuf
      subst hbuf
      simp at h0
    | some b =>
      rw [hp] at hbuf
      simp only at hbuf
      obtain ⟨cs', hrun, hlen', hnew, hold⟩ :=
        assignLoop_ok t e f b hp (by omega) (t.shape.Size + 1) 0 h ts
          (by omega) (by omega) hbuf (by omega)
          (fun j _ hj => hf j (by omega))
      have hcs : cs' = ((List.range ts.length).map f).map some := by
        apply List.ext_getElem?
        intro j
        by_cases hj : j < ts.length
        · rw [hnew j (by omega) (by omega)]
          simp [List.getElem?_range hj]
        · rw [hold j (Or.inr (by omega)), List.getElem?_eq_none (by omega),
            List.getElem?_eq_none (by simp; omega)]
      have hblt : b < h.blocks.length := by
        rcases List.getElem?_eq_some.mp hbuf with ⟨hblt, _⟩
        exact hblt
      have hH : t.Holds (⟨h.blocks.set b (some cs')⟩ : Heap α) ((List.range ts.length).map f) := by
        refine ⟨by simp [hsz], ?_⟩
        rw [hp]
        simp [List.getElem?_set_self hblt, hcs]
      refine ⟨⟨h.blocks.set b (some cs')⟩, (List.range ts.length).map f, ?_, hH, by simp, ?_,
        by simp, ?_⟩
      · simp [assignExp, hrun, bind, Except.bind, pure, Except.pure]
      · intro j hj
        rw [hf j hj]
        exact hH.get (by simp [List.getElem?_range hj])
      · intro c hc
        have hbc : b ≠ c := fun hbc => hc (by rw [hbc])
        simp [List.getElem?_set_ne hbc]

end Tensor

end mou

/-! ## The functors -/

namespace mou

theorem testSetup_eq : testSetup = .ok (testA, testB, testC, testStore) := rfl

theorem test_holds :
    testA.Holds testStore [1, 2, 3] ∧ testB.Holds testStore [2, 3, 4] ∧
      testC.Holds testStore [3, 4, 5] :=
  ⟨⟨rfl, rfl⟩, ⟨rfl, rfl⟩, ⟨rfl, rfl⟩⟩

theorem test_buffer : testA.Buffer testStore [some 1, some 2, some 3] := ⟨rfl, rfl⟩

theorem bigLen_size : (ShapeBase.ctorArgs bigLen []).Size = bigLen := by
  have h : bigLen % SIZE_MOD = bigLen := by decide
  simp only [ShapeBase.ctorArgs, ShapeBase.Size, List.foldl_nil, h]

theorem bigLen_gt : INT_MAX < (ShapeBase.ctorArgs bigLen []).Size := by
  rw [bigLen_size]
  decide

theorem big_holds :
    bigA.Holds bigStore (List.replicate bigLen 0) ∧ bigB.Holds bigStore (List.replicate bigLen 0) ∧
      bigC.Holds bigStore (List.replicate bigLen 0) := by
  have hsz : (ShapeBase.ctorArgs bigLen []).Size = (List.replicate bigLen (0 : Flt)).length := by
    rw [List.length_replicate, bigLen_size]
  have hb : ∀ b, b < 3 → bigStore.blocks[b]? =
      some (some ((List.replicate bigLen (0 : Flt)).map some)) := by
    intro b hb
    match b, hb with
    | 0, _ => simp only [bigStore, List.getElem?_cons_zero]
    | 1, _ => simp only [bigStore, List.getElem?_cons_succ, List.getElem?_cons_zero]
    | 2, _ => simp only [bigStore, List.getElem?_cons_succ, List.getElem?_cons_zero]
  exact ⟨⟨hsz, hb 0 (by decide)⟩, ⟨hsz, hb 1 (by decide)⟩, ⟨hsz, hb 2 (by decide)⟩⟩

/-- C4. `maximum::Map(a, b)` returns `a` when `a > b` and `b` otherwise,
`minimum::Map(a, b)` returns `b` when `a > b` and `a` otherwise, for every
scalar type with a comparison; over a totally ordered scalar type
`maximum::Map(a, b)` is the greatest and `minimum::Map(a, b)` the least
element of `{a, b}`. -/
theorem functor_definitions :
    (∀ (α : Type) [LT α] [DecidableRel (fun a b : α => a < b)] (a b : α),
      (a > b → maximum.Map a b = a) ∧ (¬ a > b → maximum.Map a b = b) ∧
      (a > b → minimum.Map a b = b) ∧ (¬ a > b → minimum.Map a b = a)) ∧
    (∀ (α : Type) [LinearOrder α] (a b : α),
      IsGreatest {a, b} (maximum.Map a b) ∧ IsLeast {a, b} (minimum.Map a b)) := by
  refine ⟨?_, ?_⟩
  · intro α _ _ a b
    refine ⟨?_, ?_, ?_, ?_⟩ <;> intro hab <;> simp [maximum.Map, minimum.Map, hab]
  · intro α _ a b
    by_cases hab : b < a
    · have h1 : maximum.Map a b = a := by simp [maximum.Map, hab]
      have h2 : minimum.Map a b = b := by simp [minimum.Map, hab]
      rw [h1, h2]
      refine ⟨⟨by simp, ?_⟩, ⟨by simp, ?_⟩⟩
      · intro x hx
        rcases hx with rfl | rfl
        · exact le_refl _
        · exact le_of_lt hab
      · intro x hx
        rcases hx with rfl | rfl
        · exact le_of_lt hab
        · exact le_refl _
    · have h1 : maximum.Map a b = b := by simp [maximum.Map, hab]
      have h2 : minimum.Map a b = a := by simp [minimum.Map, hab]
      rw [h1, h2]
      refine ⟨⟨by simp, ?_⟩, ⟨by simp, ?_⟩⟩
      · intro x hx
        rcases hx with rfl | rfl
        · exact not_lt.mp hab
        · exact le_refl _
      · intro x hx
        rcases hx with rfl | rfl
        · exact le_refl _
        · exact not_lt.mp hab

/-- C4, at the operands of the test and at a NaN of `float`. -/
theorem functor_definitions_witness :
    maximum.Map (3 : Flt) 2 = 3 ∧ maximum.Map Flt.nan (2 : Flt) = 2 ∧
      minimum.Map (3 : Flt) 2 = 2 ∧ minimum.Map Flt.nan (2 : Flt) = Flt.nan ∧
      IsGreatest {(3 : ℤ), 2} (maximum.Map 3 2) :=
  ⟨(functor_definitions.1 Flt 3 2).1 (by decide), (functor_definitions.1 Flt Flt.nan 2).2.1 (by decide),
    (functor_definitions.1 Flt 3 2).2.2.1 (by decide),
    (functor_definitions.1 Flt Flt.nan 2).2.2.2 (by decide), (functor_definitions.2 ℤ 3 2).1⟩

/-- C5, as the claim states it, fails: NaN and 1 compare equal (neither is
greater than the other), and `minimum::Map(NaN, 1)` returns its first operand
NaN, not the second operand 1. -/
theorem minimum_tie_counterexample :
    ¬ (Flt.nan > (1 : Flt)) ∧ ¬ ((1 : Flt) > Flt.nan) ∧
      minimum.Map Flt.nan (1 : Flt) = Flt.nan ∧ minimum.Map Flt.nan (1 : Flt) ≠ 1 := by
  decide

/-- C5, amended. For every `x`, `maximum::Map(x, x)` and `minimum::Map(x, x)`
return `x`; for every `x`, `y` that compare equal (neither `x > y` nor
`y > x`), `maximum::Map(x, y)` returns the second operand `y` and
`minimum::Map(x, y)` returns the first operand `x`. -/
theorem functor_ties (α : Type) [LT α] [DecidableRel (fun a b : α => a < b)] (x y : α) :
    maximum.Map x x = x ∧ minimum.Map x x = x ∧
      (¬ x > y → ¬ y > x → maximum.Map x y = y ∧ minimum.Map x y = x) := by
  refine ⟨by simp [maximum.Map], by simp [minimum.Map], ?_⟩
  intro hxy _
  simp [maximum.Map, minimum.Map, hxy]

/-- C5, amended, at the tie of NaN and 1. -/
theorem functor_ties_witness :
    ¬ (Flt.nan > (1 : Flt)) ∧ ¬ ((1 : Flt) > Flt.nan) ∧
      maximum.Map Flt.nan (1 : Flt) = 1 ∧ minimum.Map Flt.nan (1 : Flt) = Flt.nan :=
  ⟨by decide, by decide, (functor_ties Flt Flt.nan 1).2.2 (by decide) (by decide)⟩

end mou

/-! ## Expression assignment -/

namespace mou

namespace Exp

variable {α : Type}

theorem Eval_F {h : Heap α} {lhs rhs : Exp α} {i : Int} {a b : α} (f : α → α → α)
    (ha : lhs.Eval h i = .ok a) (hb : rhs.Eval h i = .ok b) :
    (F f lhs rhs).Eval h i = .ok (f a b) := by
  simp [F, Eval, ha, hb, bind, Except.bind, pure, Except.pure]

/-- An expression whose leaves are containers of length `n` or more can be
evaluated at every index below `n`. -/
theorem Eval_of_leaves (h : Heap α) (n : Nat) (e : Exp α)
    (hl : ∀ l ∈ e.leaves, ∃ xs, l.Holds h xs ∧ n ≤ xs.length) :
    ∀ j, j < n → ∃ v, e.Eval h (j : Int) = .ok v := by
  induction e with
  | leaf t =>
    intro j hj
    obtain ⟨xs, hx, hlen⟩ := hl t (by simp [leaves])
    obtain ⟨x, _, _, hev⟩ := hx.get_lt (lt_of_lt_of_le hj hlen)
    exact ⟨x, hev⟩
  | binary f lhs rhs ihl ihr =>
    intro j hj
    obtain ⟨a, ha⟩ := ihl (fun l hl' => hl l (by simp [leaves, hl'])) j hj
    obtain ⟨b, hb⟩ := ihr (fun l hl' => hl l (by simp [leaves, hl'])) j hj
    exact ⟨f a b, Eval_F f ha hb⟩

end Exp

/-- Assignment of `F<op>(B, e)` for a leaf container `B` and a second operand
that evaluates to `g c` on the element `c` of a leaf container `C`. -/
theorem assignExp_leaves {α : Type} (op g : α → α → α) (h : Heap α) (A B C : Tensor)
    (as : List (Option α)) (bs cs : List α) (hA : A.Buffer h as) (hB : B.Holds h bs) (hC : C.Holds h cs)
    (hb : bs.length = as.length) (hc : cs.length = as.length) (hn : as.length ≤ INT_MAX) :
    ∃ h', A.assignExp h (F op (.leaf B) (F g (.leaf C) (.leaf B))) = .ok (A, h') ∧
      ∀ i, i < as.length → ∃ b c, B.get h i = .ok b ∧ C.get h i = .ok c ∧
        A.get h' i = .ok (op b (g c b)) := by
  have hev : ∀ i, i < as.length → ∃ b c, B.get h i = .ok b ∧ C.get h i = .ok c ∧
      (F op (.leaf B) (F g (.leaf C) (.leaf B))).Eval h (i : Int) = .ok (op b (g c b)) := by
    intro i hi
    obtain ⟨b, _, hbg, hbe⟩ := hB.get_lt (by omega : i < bs.length)
    obtain ⟨c, _, hcg, hce⟩ := hC.get_lt (by omega : i < cs.length)
    exact ⟨b, c, hbg, hcg, Exp.Eval_F op hbe (Exp.Eval_F g hce hbe)⟩
  obtain ⟨h', _, hrun, _, _, hget, _, _⟩ := Tensor.assignExp_spec h A _ as hA hn
    (fun j hj => by
      obtain ⟨b, c, _, _, he⟩ := hev j hj
      exact ⟨_, he⟩)
  refine ⟨h', hrun, fun i hi => ?_⟩
  obtain ⟨b, c, hbg, hcg, he⟩ := hev i hi
  exact ⟨b, c, hbg, hcg, by rw [hget i hi, he]⟩

/-- For every operation functor `op` and tensors `A`, `B`, `C` of equal length
`n <= INT_MAX`, the assignment `A = F<op>(B, C)` ends and leaves
`A[i] == op.Map(B[i], C[i])` for every `i < n`, with `B[i]` and `C[i]` read
before the assignment. -/
theorem assignExp_elementwise {α : Type} (op : α → α → α) (h : Heap α) (A B C : Tensor)
    (as : List (Option α)) (bs cs : List α) (hA : A.Buffer h as) (hB : B.Holds h bs) (hC : C.Holds h cs)
    (hb : bs.length = as.length) (hc : cs.length = as.length) (hn : as.length ≤ INT_MAX) :
    ∃ h', A.assignExp h (F op (.leaf B) (.leaf C)) = .ok (A, h') ∧
      ∀ i, i < as.length → ∃ b c, B.get h i = .ok b ∧ C.get h i = .ok c ∧
        A.get h' i = .ok (op b c) := by
  have hev : ∀ i, i < as.length → ∃ b c, B.get h i = .ok b ∧ C.get h i = .ok c ∧
      (F op (.leaf B) (.leaf C)).Eval h (i : Int) = .ok (op b c) := by
    intro i hi
    obtain ⟨b, _, hbg, hbe⟩ := hB.get_lt (by omega : i < bs.length)
    obtain ⟨c, _, hcg, hce⟩ := hC.get_lt (by omega : i < cs.length)
    exact ⟨b, c, hbg, hcg, Exp.Eval_F op hbe hce⟩
  obtain ⟨h', _, hrun, _, _, hget, _, _⟩ := Tensor.assignExp_spec h A _ as hA hn
    (fun j hj => by
      obtain ⟨b, c, _, _, he⟩ := hev j hj
      exact ⟨_, he⟩)
  refine ⟨h', hrun, fun i hi => ?_⟩
  obtain ⟨b, c, hbg, hcg, he⟩ := hev i hi
  exact ⟨b, c, hbg, hcg, by rw [hget i hi, he]⟩

/-- The elementwise assignment on the containers of the test with the functor
`maximum`. -/
theorem assignExp_elementwise_test :
    testA.Buffer testStore [some 1, some 2, some 3] ∧ testB.Holds testStore [2, 3, 4] ∧
      testC.Holds testStore [3, 4, 5] ∧ 3 ≤ INT_MAX ∧
      ∃ h', testA.assignExp testStore (F maximum.Map (.leaf testB) (.leaf testC))
          = .ok (testA, h') ∧
        ∀ i, i < 3 → ∃ b c, testB.get testStore i = .ok b ∧ testC.get testStore i = .ok c ∧
          testA.get h' i = .ok (maximum.Map b c) :=
  ⟨test_buffer, test_holds.2.1, test_holds.2.2, by decide,
    assignExp_elementwise maximum.Map testStore testA testB testC [some 1, some 2, some 3]
      [2, 3, 4] [3, 4, 5] test_buffer test_holds.2.1 test_holds.2.2 rfl rfl (by decide)⟩

end mou

/-! ## Nested expressions -/

namespace mou

namespace Flt

theorem zero_def : (0 : Flt) = fin 0 := by
  show fin ((0 : ℕ) : ℚ) = fin 0
  simp

theorem one_def : (1 : Flt) = fin 1 := by
  show fin ((1 : ℕ) : ℚ) = fin 1
  simp

theorem lt_def (a b : Flt) : a < b ↔ lt a b = true := Iff.rfl

theorem le_def (a b : Flt) : a ≤ b ↔ le a b = true := Iff.rfl

theorem div_def (a b : Flt) : a / b = div a b := rfl

/-- A finite non-zero value divided by the minimum of itself and a value it
does not exceed is 1. -/
theorem div_minimum_self (b c : Flt) (hle : b ≤ c) (h0 : b ≠ 0) (hf : b.isFinite = true) :
    b / minimum.Map c b = 1 := by
  cases b with
  | nan => simp [isFinite] at hf
  | ninf => simp [isFinite] at hf
  | pinf => simp [isFinite] at hf
  | fin q =>
    have hq : q ≠ 0 := by
      intro hq
      apply h0
      rw [zero_def, hq]
    cases c with
    | nan => simp [le_def, le, lt, eq] at hle
    | ninf => simp [le_def, le, lt, eq] at hle
    | pinf => simp [minimum.Map, lt_def, lt, div_def, div, hq, one_def]
    | fin r =>
      simp only [le_def, le, lt, eq, Bool.or_eq_true, decide_eq_true_eq] at hle
      by_cases hqr : q < r
      · simp [minimum.Map, lt_def, lt, div_def, div, hq, one_def, hqr]
      · have hr : r = q := by
          rcases hle with hlt | heq
          · exact absurd hlt hqr
          · exact heq.symm
        subst hr
        simp [minimum.Map, lt_def, lt, div_def, div, hq, one_def]

end Flt

/-- On tensors `A`, `B`, `C` of equal length `n <= INT_MAX`, the assignment
`A = F<div>(B, F<maximum>(C, B))` ends and leaves
`A[i] == B[i] / maximum::Map(C[i], B[i])` for every `i < n`. -/
theorem assignExp_nested_maximum {α : Type} [Div α] [LT α]
    [DecidableRel (fun a b : α => a < b)]
    (h : Heap α) (A B C : Tensor) (as : List (Option α)) (bs cs : List α)
    (hA : A.Buffer h as) (hB : B.Holds h bs) (hC : C.Holds h cs)
    (hb : bs.length = as.length) (hc : cs.length = as.length) (hn : as.length ≤ INT_MAX) :
    ∃ h', A.assignExp h (F div.Map (.leaf B) (F maximum.Map (.leaf C) (.leaf B))) = .ok (A, h') ∧
      ∀ i, i < as.length → ∃ b c, B.get h i = .ok b ∧ C.get h i = .ok c ∧
        A.get h' i = .ok (b / maximum.Map c b) :=
  assignExp_leaves div.Map maximum.Map h A B C as bs cs hA hB hC hb hc hn

namespace Vec

variable {α : Type}

/-- The pass of `target = expr` over the `k` indices from `i` on, for a target
whose buffer is the live block `b`: it ends, and rewrites the cells
`i .. len-1` of `b` with the values the expression had on entry. -/
theorem assignFrom_ok (v : Vec) (e : Exp α) (f : Nat → α) (b : Nat) (hp : v.dptr = some b) :
    ∀ (k i : Nat) (h : Heap α) (cs : List (Option α)),
      i + k = v.len → h.blocks[b]? = some (some cs) → v.len ≤ cs.length →
      (∀ j, i ≤ j → j < v.len → e.Eval h (j : Int) = .ok (f j)) →
      ∃ cs', v.assignFrom e k i h = .ok ⟨h.blocks.set b (some cs')⟩ ∧
        cs'.length = cs.length ∧
        (∀ j, i ≤ j → j < v.len → cs'[j]? = some (some (f j))) ∧
        (∀ j, (j < i ∨ v.len ≤ j) → cs'[j]? = cs[j]?) := by
  intro k
  induction k with
  | zero =>
    intro i h cs hk hb _ _
    refine ⟨cs, ?_, rfl, ?_, ?_⟩
    · simp only [assignFrom]
      rw [Heap.set_block_self hb]
    · intro j hj hjn; omega
    · intro j _; rfl
  | succ k ih =>
    intro i h cs hk hb hlen hev
    have hlt : i < v.len := by omega
    have hst := Heap.store_block hb (lt_of_lt_of_le hlt hlen) (f i)
    have hblt : b < h.blocks.length := by
      rcases List.getElem?_eq_some.mp hb with ⟨hblt, _⟩
      exact hblt
    have hev1 : ∀ j, i + 1 ≤ j → j < v.len →
        e.Eval (⟨h.blocks.set b (some (cs.set i (some (f i))))⟩ : Heap α) (j : Int)
          = .ok (f j) := by
      intro j hj hjn
      rw [Exp.Eval_store_ne hst e (by omega : j ≠ i)]
      exact hev j (by omega) hjn
    obtain ⟨cs', hrun, hlen', hnew, hold⟩ :=
      ih (i + 1) ⟨h.blocks.set b (some (cs.set i (some (f i))))⟩ (cs.set i (some (f i)))
        (by omega) (by simp [List.getElem?_set_self hblt]) (by simpa using hlen) hev1
    refine ⟨cs', ?_, by simpa using hlen', ?_, ?_⟩
    · simp only [assignFrom, hev i (le_refl i) hlt, hp, hst, bind, Except.bind]
      rw [hrun]; simp only [List.set_set]
    · intro j hj hjn
      by_cases hji : j = i
      · subst hji
        rw [hold j (Or.inl (by omega))]
        simp [List.getElem?_set_self (lt_of_lt_of_le hlt hlen)]
      · exact hnew j (by omega) hjn
    · intro j hj
      rw [hold j (by omega)]
      exact List.getElem?_set_ne (by omega)

/-- Expression assignment to a vector, of any length, from an expression that
can be evaluated at every index below that length: the assignment ends, and
the target has at every index the value the expression had before it. -/
theorem assign_spec (h : Heap α) (v : Vec) (e : Exp α) (ts : List (Option α))
    (hv : v.Buffer h ts) (hev : ∀ j, j < ts.length → ∃ x, e.Eval h (j : Int) = .ok x) :
    ∃ h', v.assignExp h e = .ok (v, h') ∧
      ∀ j, j < ts.length → v.get h' j = e.Eval h (j : Int) := by
  have hsz : v.len = ts.length := hv.1
  by_cases h0 : ts.length = 0
  · refine ⟨h, ?_, fun j hj => by omega⟩
    simp [assignExp, assignFrom, hsz, h0, bind, Except.bind, pure, Except.pure]
  · obtain ⟨v0, _⟩ := hev 0 (by omega)
    have hev' : ∀ j, ∃ x, j < ts.length → e.Eval h (j : Int) = .ok x := by
      intro j
      by_cases hj : j < ts.length
      · obtain ⟨x, hx⟩ := hev j hj
        exact ⟨x, fun _ => hx⟩
      · exact ⟨v0, fun hj' => absurd hj' hj⟩
    choose f hf using hev'
    have hbuf := hv.2
    cases hp : v.dptr with
    | none =>
      have hp' : v.toTensor.dptr = none := hp
      rw [hp'] at hbuf
      simp only at hbuf
      subst hbuf
      simp at h0
    | some b =>
      have hp' : v.toTensor.dptr = some b := hp
      rw [hp'] at hbuf
      simp only at hbuf
      obtain ⟨cs', hrun, _, hnew, _⟩ :=
        assignFrom_ok v e f b hp v.len 0 h ts (by omega) hbuf (by omega)
          (fun j _ hj => hf j (by omega))
      have hblt : b < h.blocks.length := by
        rcases List.getElem?_eq_some.mp hbuf with ⟨hblt, _⟩
        exact hblt
      refine ⟨⟨h.blocks.set b (some cs')⟩, ?_, ?_⟩
      · simp [assignExp, hrun, bind, Except.bind, pure, Except.pure]
      · intro j hj
        rw [hf j hj]
        simp only [get, hp]
        exact Heap.load_block (by simp [List.getElem?_set_self hblt])
          (hnew j (by omega) (by omega))

/-- Every index below the length of a vector can be read, through
`operator[]` and through the `Eval` of its leaf. -/
theorem Holds.read {h : Heap α} {v : Vec} {xs : List α} (hv : v.Holds h xs) {i : Nat}
    (hi : i < xs.length) :
    ∃ x, xs[i]? = some x ∧ v.get h i = .ok x ∧ (v.leaf : Exp α).Eval h (i : Int) = .ok x :=
  Tensor.Holds.get_lt hv hi

end Vec

/-- C2. For every vectors `A`, `B`, `C` of equal length `n`, the containers of
the test, the assignment `A = F<div>(B, F<maximum>(C, B))` ends and leaves
`A[i] == B[i] / maximum::Map(C[i], B[i])` for every `i < n`, with `B[i]` and
`C[i]` read before the assignment (`A` may be `B` or `C` itself, and its
buffer need not be written yet). -/
theorem nested_maximum {α : Type} [Div α] [LT α] [DecidableRel (fun a b : α => a < b)]
    (h : Heap α) (A B C : Vec) (as : List (Option α)) (bs cs : List α)
    (hA : A.Buffer h as) (hB : B.Holds h bs) (hC : C.Holds h cs)
    (hb : bs.length = as.length) (hc : cs.length = as.length) :
    ∃ h', A.assignExp h (F div.Map B.leaf (F maximum.Map C.leaf B.leaf)) = .ok (A, h') ∧
      ∀ i, i < as.length → ∃ b c, B.get h i = .ok b ∧ C.get h i = .ok c ∧
        A.get h' i = .ok (b / maximum.Map c b) := by
  have hev : ∀ i, i < as.length → ∃ b c, B.get h i = .ok b ∧ C.get h i = .ok c ∧
      (F div.Map B.leaf (F maximum.Map C.leaf B.leaf)).Eval h (i : Int)
        = .ok (b / maximum.Map c b) := by
    intro i hi
    obtain ⟨b, _, hbg, hbe⟩ := hB.read (by omega : i < bs.length)
    obtain ⟨c, _, hcg, hce⟩ := hC.read (by omega : i < cs.length)
    exact ⟨b, c, hbg, hcg, Exp.Eval_F div.Map hbe (Exp.Eval_F maximum.Map hce hbe)⟩
  obtain ⟨h', hrun, hget⟩ := Vec.assign_spec h A _ as hA
    (fun j hj => by
      obtain ⟨b, c, _, _, he⟩ := hev j hj
      exact ⟨_, he⟩)
  refine ⟨h', hrun, fun i hi => ?_⟩
  obtain ⟨b, c, hbg, hcg, he⟩ := hev i hi
  exact ⟨b, c, hbg, hcg, by rw [hget i hi, he]⟩

/-- C2, on the test: `B = [2, 3, 4]` and `C = [3, 4, 5]` give
`A = [2/3, 3/4, 4/5]`. -/
theorem nested_maximum_witness :
    vecA.Buffer testStore [some 1, some 2, some 3] ∧ vecB.Holds testStore [2, 3, 4] ∧
      vecC.Holds testStore [3, 4, 5] ∧
      ∃ h', vecA.assignExp testStore
          (F div.Map vecB.leaf (F maximum.Map vecC.leaf vecB.leaf)) = .ok (vecA, h') ∧
        vecA.get h' 0 = .ok (Flt.fin (2 / 3)) ∧ vecA.get h' 1 = .ok (Flt.fin (3 / 4)) ∧
        vecA.get h' 2 = .ok (Flt.fin (4 / 5)) := by
  have hA : vecA.Buffer testStore [some 1, some 2, some 3] := ⟨rfl, rfl⟩
  have hB : vecB.Holds testStore [2, 3, 4] := ⟨rfl, rfl⟩
  have hC : vecC.Holds testStore [3, 4, 5] := ⟨rfl, rfl⟩
  refine ⟨hA, hB, hC, ?_⟩
  obtain ⟨h', hrun, hall⟩ := nested_maximum testStore vecA vecB vecC
    [some 1, some 2, some 3] [2, 3, 4] [3, 4, 5] hA hB hC rfl rfl
  refine ⟨h', hrun, ?_, ?_, ?_⟩
  · obtain ⟨b, c, hb, hc, ha⟩ := hall 0 (by decide)
    cases hb; cases hc; rw [ha]; rfl
  · obtain ⟨b, c, hb, hc, ha⟩ := hall 1 (by decide)
    cases hb; cases hc; rw [ha]; rfl
  · obtain ⟨b, c, hb, hc, ha⟩ := hall 2 (by decide)
    cases hb; cases hc; rw [ha]; rfl

/-- C3, as the claim states it, fails twice.  On `B = [inf]`, `C = [inf]` the
element `B[0]` is non-zero and `B[0] <= C[0]`, and `A = F<div>(B, F<minimum>(C, B))`
leaves `A[0] = inf / inf = NaN`, not 1.  On containers of equal length `2 ^ 31`
the assignment is undefined behaviour. -/
theorem nested_minimum_counterexample :
    (infA.Holds infStore [0] ∧ infB.Holds infStore [Flt.pinf] ∧ infC.Holds infStore [Flt.pinf] ∧
      Flt.pinf ≤ Flt.pinf ∧ Flt.pinf ≠ 0 ∧
      ∃ h', infA.assignExp infStore
          (F div.Map (.leaf infB) (F minimum.Map (.leaf infC) (.leaf infB))) = .ok (infA, h') ∧
        infA.get h' 0 = .ok Flt.nan ∧ infA.get h' 0 ≠ .ok 1) ∧
    (bigA.Holds bigStore (List.replicate bigLen 0) ∧ bigB.Holds bigStore (List.replicate bigLen 0) ∧
      bigC.Holds bigStore (List.replicate bigLen 0) ∧
      bigA.assignExp bigStore (F div.Map (.leaf bigB) (F minimum.Map (.leaf bigC) (.leaf bigB)))
        = .error .undefined) := by
  refine ⟨⟨⟨rfl, rfl⟩, ⟨rfl, rfl⟩, ⟨rfl, rfl⟩, by decide, by decide,
    ⟨⟨[some [some Flt.nan], some [some Flt.pinf], some [some Flt.pinf]]⟩, rfl, rfl, ?_⟩⟩,
    ⟨big_holds.1, big_holds.2.1, big_holds.2.2, Tensor.assignExp_overflow _ _ _ bigLen_gt⟩⟩
  intro hne
  have h1 : (Except.ok Flt.nan : Except Fault Flt) = .ok 1 := hne
  injection h1 with h1
  exact absurd h1 (by decide)

/-- C3, amended. For `float` containers `A`, `B`, `C` of equal length
`n <= INT_MAX`, the assignment `A = F<div>(B, F<minimum>(C, B))` ends and leaves
`A[i] == B[i] / minimum::Map(C[i], B[i])` for every `i < n`; whenever
`B[i] <= C[i]` and `B[i]` is finite and non-zero, `A[i]` is 1. -/
theorem nested_minimum (h : Heap Flt) (A B C : Tensor) (as : List (Option Flt))
    (bs cs : List Flt) (hA : A.Buffer h as) (hB : B.Holds h bs) (hC : C.Holds h cs)
    (hb : bs.length = as.length) (hc : cs.length = as.length) (hn : as.length ≤ INT_MAX) :
    ∃ h', A.assignExp h (F div.Map (.leaf B) (F minimum.Map (.leaf C) (.leaf B))) = .ok (A, h') ∧
      ∀ i, i < as.length → ∃ b c, B.get h i = .ok b ∧ C.get h i = .ok c ∧
        A.get h' i = .ok (b / minimum.Map c b) ∧
        (b ≤ c → b ≠ 0 → b.isFinite = true → A.get h' i = .ok 1) := by
  obtain ⟨h', hrun, hall⟩ :=
    assignExp_leaves div.Map minimum.Map h A B C as bs cs hA hB hC hb hc hn
  refine ⟨h', hrun, fun i hi => ?_⟩
  obtain ⟨b, c, hbg, hcg, ha⟩ := hall i hi
  refine ⟨b, c, hbg, hcg, ha, fun hle h0 hf => ?_⟩
  rw [ha]
  exact congrArg Except.ok (Flt.div_minimum_self b c hle h0 hf)

/-- C3, amended, on the test: `B = [2, 3, 4]` and `C = [3, 4, 5]` give
`A = [1, 1, 1]`. -/
theorem nested_minimum_witness :
    testA.Buffer testStore [some 1, some 2, some 3] ∧ testB.Holds testStore [2, 3, 4] ∧
      testC.Holds testStore [3, 4, 5] ∧ 3 ≤ INT_MAX ∧
      ∃ h', testA.assignExp testStore
          (F div.Map (.leaf testB) (F minimum.Map (.leaf testC) (.leaf testB))) = .ok (testA, h') ∧
        testA.get h' 0 = .ok 1 ∧ testA.get h' 1 = .ok 1 ∧ testA.get h' 2 = .ok 1 := by
  refine ⟨test_buffer, test_holds.2.1, test_holds.2.2, by decide, ?_⟩
  obtain ⟨h', hrun, hall⟩ := nested_minimum testStore testA testB testC
    [some 1, some 2, some 3] [2, 3, 4] [3, 4, 5] test_buffer test_holds.2.1 test_holds.2.2 rfl rfl (by decide)
  refine ⟨h', hrun, ?_, ?_, ?_⟩
  · obtain ⟨b, c, hb, hc, _, ha⟩ := hall 0 (by decide)
    cases hb; cases hc
    exact ha (by decide) (by decide) rfl
  · obtain ⟨b, c, hb, hc, _, ha⟩ := hall 1 (by decide)
    cases hb; cases hc
    exact ha (by decide) (by decide) rfl
  · obtain ⟨b, c, hb, hc, _, ha⟩ := hall 2 (by decide)
    cases hb; cases hc
    exact ha (by decide) (by decide) rfl

end mou

/-! ## Locality and frame of the materialization -/

namespace mou

/-- C6. For every expression tree and every index `i`, `Eval(i)` depends only
on the element at index `i` of the leaves of the tree: two stores in which the
cell at index `i` of the buffer of every leaf is the same give the same
`Eval(i)`, whatever the other cells, the other blocks and the lengths are (for
a negative `i` nothing is asked of the stores).  `Eval` is a `const` member: it
maps the store to a value and returns no store. -/
theorem eval_index_local {α : Type} (h1 h2 : Heap α) (e : Exp α) (i : Int)
    (hl : 0 ≤ i → ∀ t ∈ e.leaves, ∀ b, t.dptr = some b → h1.cell b i.toNat = h2.cell b i.toNat) :
    e.Eval h1 i = e.Eval h2 i := by
  induction e with
  | leaf t =>
    simp only [Exp.Eval, Tensor.Eval]
    by_cases hi : i < 0
    · simp only [hi, if_true]
    · simp only [hi, if_false]
      cases hp : t.dptr with
      | none => rfl
      | some b =>
        have hc := hl (by omega) t (by simp [Exp.leaves]) b hp
        simp only [Heap.cell] at hc
        simp only [Heap.load]
        cases hb1 : h1.blocks[b]? with
        | none =>
          cases hb2 : h2.blocks[b]? with
          | none => rfl
          | some o2 =>
            cases o2 with
            | none => rfl
            | some c2 =>
              rw [hb1, hb2] at hc
              simp only at hc ⊢
              rw [← hc]
        | some o1 =>
          cases o1 with
          | none =>
            cases hb2 : h2.blocks[b]? with
            | none => rfl
            | some o2 =>
              cases o2 with
              | none => rfl
              | some c2 =>
                rw [hb1, hb2] at hc
                simp only at hc ⊢
                rw [← hc]
          | some c1 =>
            cases hb2 : h2.blocks[b]? with
            | none =>
              rw [hb1, hb2] at hc
              simp only at hc ⊢
              rw [hc]
            | some o2 =>
              cases o2 with
              | none =>
                rw [hb1, hb2] at hc
                simp only at hc ⊢
                rw [hc]
              | some c2 =>
                rw [hb1, hb2] at hc
                simp only at hc ⊢
                rw [hc]
  | binary f lhs rhs ihl ihr =>
    have h1' := ihl (fun hi t ht => hl hi t (by simp [Exp.leaves, ht]))
    have h2' := ihr (fun hi t ht => hl hi t (by simp [Exp.leaves, ht]))
    simp only [Exp.Eval, h1', h2']

/-- C6, on the expression of the test at index 1, in two stores that differ
at the indices 0 and 2 of `B` and `C`. -/
theorem eval_index_local_witness :
    ((0 : Int) ≤ 1 → ∀ t ∈ (F div.Map (.leaf testB) (F maximum.Map (.leaf testC) (.leaf testB)) :
        Exp Flt).leaves, ∀ b, t.dptr = some b →
        testStore.cell b (1 : Int).toNat = testStore2.cell b (1 : Int).toNat) ∧
      testStore.cell 1 0 ≠ testStore2.cell 1 0 ∧
      (F div.Map (.leaf testB) (F maximum.Map (.leaf testC) (.leaf testB)) : Exp Flt).Eval
          testStore 1 =
        (F div.Map (.leaf testB) (F maximum.Map (.leaf testC) (.leaf testB)) : Exp Flt).Eval
          testStore2 1 := by
  have hl : (0 : Int) ≤ 1 → ∀ t ∈ (F div.Map (.leaf testB) (F maximum.Map (.leaf testC)
      (.leaf testB)) : Exp Flt).leaves, ∀ b, t.dptr = some b →
      testStore.cell b (1 : Int).toNat = testStore2.cell b (1 : Int).toNat := by
    intro _ t ht b hb
    simp only [F, Exp.leaves, List.mem_append, List.mem_singleton] at ht
    rcases ht with rfl | rfl | rfl <;> cases hb <;> rfl
  refine ⟨hl, ?_, eval_index_local testStore testStore2 _ 1 hl⟩
  intro hne
  have h1 : (some (some (2 : Flt)) : Option (Option Flt)) = some (some 7) := hne
  injection h1 with h1
  injection h1 with h1
  exact absurd h1 (by decide)

/-- For every target tensor of length `n <= INT_MAX` and every
expression whose leaves are containers of length `n` or more, `target = expr`
ends, leaves the target its pointer and shape, writes `expr.Eval(i)` at every
index `i < n` of the target, whose buffer still has `n` elements, changes no
other block of the store, and leaves every leaf on another buffer unchanged. -/
theorem assignExp_frame {α : Type} (h : Heap α) (t : Tensor) (e : Exp α) (ts : List (Option α))
    (ht : t.Buffer h ts) (hn : ts.length ≤ INT_MAX)
    (hl : ∀ l ∈ e.leaves, ∃ xs, l.Holds h xs ∧ ts.length ≤ xs.length) :
    ∃ h' xs, t.assignExp h e = .ok (t, h') ∧
      t.Holds h' xs ∧ xs.length = ts.length ∧
      (∀ i, i < ts.length → ∃ v, e.Eval h (i : Int) = .ok v ∧ t.get h' i = .ok v) ∧
      h'.blocks.length = h.blocks.length ∧
      (∀ c, t.dptr ≠ some c → h'.blocks[c]? = h.blocks[c]?) ∧
      (∀ l ∈ e.leaves, l.dptr ≠ t.dptr → ∀ ys, l.Holds h ys → l.Holds h' ys) := by
  have hev := Exp.Eval_of_leaves h ts.length e hl
  obtain ⟨h', xs, hrun, hH, hlen, hget, hblocks, hframe⟩ :=
    Tensor.assignExp_spec h t e ts ht hn hev
  refine ⟨h', xs, hrun, hH, hlen, ?_, hblocks, hframe, ?_⟩
  · intro i hi
    obtain ⟨v, hv⟩ := hev i hi
    exact ⟨v, hv, by rw [hget i hi, hv]⟩
  · intro l _ hne ys hys
    refine ⟨hys.1, ?_⟩
    have hbuf := hys.2
    cases hp : l.dptr with
    | none =>
      rw [hp] at hbuf
      exact hbuf
    | some c =>
      rw [hp] at hbuf
      simp only at hbuf ⊢
      rw [hframe c (fun hc => hne (by rw [hp, hc]))]
      exact hbuf

/-- On a two-element target and the three-element `B` and `C` of the test,
only the two elements of the target are written. -/
theorem assignExp_frame_test :
    mixA.Buffer mixStore [some 9, some 9] ∧ 2 ≤ INT_MAX ∧
      (∀ l ∈ (F div.Map (.leaf testB) (.leaf testC) : Exp Flt).leaves,
        ∃ xs, l.Holds mixStore xs ∧ 2 ≤ xs.length) ∧
      ∃ h' xs, mixA.assignExp mixStore (F div.Map (.leaf testB) (.leaf testC)) = .ok (mixA, h') ∧
        mixA.Holds h' xs ∧ xs.length = 2 ∧
        (∀ i : Nat, i < 2 → ∃ v, (F div.Map (.leaf testB) (.leaf testC) : Exp Flt).Eval mixStore (i : Int)
          = .ok v ∧ mixA.get h' i = .ok v) ∧
        h'.blocks.length = mixStore.blocks.length ∧
        (∀ c, mixA.dptr ≠ some c → h'.blocks[c]? = mixStore.blocks[c]?) ∧
        (∀ l ∈ (F div.Map (.leaf testB) (.leaf testC) : Exp Flt).leaves, l.dptr ≠ mixA.dptr →
          ∀ ys, l.Holds mixStore ys → l.Holds h' ys) := by
  have hl : ∀ l ∈ (F div.Map (.leaf testB) (.leaf testC) : Exp Flt).leaves,
      ∃ xs, l.Holds mixStore xs ∧ 2 ≤ xs.length := by
    intro l hl
    simp only [F, Exp.leaves, List.mem_append, List.mem_singleton] at hl
    rcases hl with rfl | rfl
    · exact ⟨[2, 3, 4], ⟨rfl, rfl⟩, by decide⟩
    · exact ⟨[3, 4, 5], ⟨rfl, rfl⟩, by decide⟩
  exact ⟨⟨rfl, rfl⟩, by decide, hl,
    assignExp_frame mixStore mixA (F div.Map (.leaf testB) (.leaf testC)) [some 9, some 9]
      ⟨rfl, rfl⟩
      (by decide) hl⟩

end mou

/-! ## Copies into a buffer -/

namespace mou

namespace Heap

variable {α : Type}

/-- The writes of a copy into a live block that is long enough all succeed,
and change the cells `i .. i + vs.length - 1` of that block only. -/
theorem storeFrom_block (b : Nat) (vs : List α) :
    ∀ (h : Heap α) (i : Nat) (cs : List (Option α)), h.blocks[b]? = some (some cs) →
      i + vs.length ≤ cs.length →
      ∃ cs', storeFrom (some b) h i vs = .ok ⟨h.blocks.set b (some cs')⟩ ∧
        cs'.length = cs.length ∧
        (∀ j, i ≤ j → j < i + vs.length → cs'[j]? = (vs[j - i]?).map some) ∧
        (∀ j, (j < i ∨ i + vs.length ≤ j) → cs'[j]? = cs[j]?) := by
  induction vs with
  | nil =>
    intro h i cs hb _
    refine ⟨cs, ?_, rfl, ?_, fun _ _ => rfl⟩
    · simp only [storeFrom]
      rw [set_block_self hb]
    · intro j hj hj'
      simp at hj'
      omega
  | cons v vs ih =>
    intro h i cs hb hlen
    simp only [List.length_cons] at hlen
    have hst := store_block hb (by omega : i < cs.length) v
    have hblt : b < h.blocks.length := by
      rcases List.getElem?_eq_some.mp hb with ⟨hblt, _⟩
      exact hblt
    obtain ⟨cs', hrun, hlen', hnew, hold⟩ :=
      ih ⟨h.blocks.set b (some (cs.set i (some v)))⟩ (i + 1) (cs.set i (some v))
        (by simp [List.getElem?_set_self hblt]) (by simp; omega)
    refine ⟨cs', ?_, by simpa using hlen', ?_, ?_⟩
    · simp only [storeFrom, hst, bind, Except.bind]
      rw [hrun]; simp only [List.set_set]
    · intro j hj hj'
      simp only [List.length_cons] at hj'
      by_cases hji : j = i
      · subst hji
        rw [hold j (Or.inl (by omega))]
        simp [List.getElem?_set_self (by omega : j < cs.length)]
      · rw [hnew j (by omega) (by omega)]
        have hsub : j - i = (j - (i + 1)) + 1 := by omega
        rw [hsub, List.getElem?_cons_succ]
    · intro j hj
      simp only [List.length_cons] at hj
      rw [hold j (by omega)]
      exact List.getElem?_set_ne (by omega)

/-- A copy of nothing writes nothing. -/
theorem storeFrom_nil (p : Ptr) (h : Heap α) (i : Nat) : storeFrom p h i [] = .ok h := rfl

end Heap

namespace Tensor

variable {α : Type}

/-- The member `_M_allocate_and_copy` on an initializer list: no allocation
and a null pointer for the empty list, else one new block, the last of the
store, holding the elements of the list. -/
theorem _M_allocate_and_copy_list_eq (h : Heap α) (l : List α) :
    _M_allocate_and_copy_list h l =
      if l.length = 0 then .ok (none, h)
      else .ok (some h.blocks.length, ⟨h.blocks ++ [some (l.map some)]⟩) := by
  by_cases hlen : l.length = 0
  · have hl : l = [] := List.length_eq_zero.mp hlen
    subst hl
    simp [_M_allocate_and_copy_list, _M_allocate, Heap.storeFrom, bind, Except.bind, pure,
      Except.pure]
  · have hb : (⟨h.blocks ++ [some (List.replicate l.length none)]⟩ : Heap α).blocks[h.blocks.length]?
        = some (some (List.replicate l.length none)) := by
      simp
    obtain ⟨cs', hrun, hlen', hnew, _⟩ :=
      Heap.storeFrom_block h.blocks.length l _ 0 _ hb (by simp)
    have hcs : cs' = l.map some := by
      apply List.ext_getElem?
      intro j
      by_cases hj : j < l.length
      · rw [hnew j (by omega) (by omega)]
        simp
      · rw [List.getElem?_eq_none (by simp at hlen'; omega), List.getElem?_eq_none (by simp; omega)]
    simp only [_M_allocate_and_copy_list, _M_allocate, hlen, ne_eq, not_false_eq_true, if_true,
      Heap.allocate, if_false, bind, Except.bind, pure, Except.pure]
    rw [hrun, hcs]
    simp

end Tensor

end mou

/-! ## Assignment from a literal sequence -/

namespace mou

namespace Tensor

variable {α : Type}

/-- The member `_M_deallocate` on the buffer of a valid tensor: nothing for a
null pointer, else the block is released. -/
theorem _M_deallocate_valid (h : Heap α) (t : Tensor) (hv : t.Valid h) :
    ∃ h1, _M_deallocate h t.dptr t.shape.Size = .ok h1 ∧ h1.blocks.length = h.blocks.length ∧
      (∀ b, t.dptr = some b → h1.blocks[b]? = some none) ∧
      (∀ c, t.dptr ≠ some c → h1.blocks[c]? = h.blocks[c]?) := by
  have hbuf := hv.1
  cases hp : t.dptr with
  | none => exact ⟨h, rfl, rfl, (fun b hb => by cases hb), fun _ _ => rfl⟩
  | some b =>
    rw [hp] at hbuf
    obtain ⟨cs, hb, hlen⟩ := hbuf
    have hblt : b < h.blocks.length := by
      rcases List.getElem?_eq_some.mp hb with ⟨hblt, _⟩
      exact hblt
    refine ⟨⟨h.blocks.set b none⟩, ?_, by simp, ?_, ?_⟩
    · simp [_M_deallocate, Heap.deallocate, hb, hlen]
    · intro c hc
      cases hc
      simp [List.getElem?_set_self hblt]
    · intro c hc
      have hbc : b ≠ c := fun hbc => hc (by rw [hbc])
      simp [List.getElem?_set_ne hbc]

/-- The branch of `operator=(std::initializer_list)` that keeps the buffer:
taken on a valid tensor of shape `(l.size())`, it ends, and the buffer holds
the elements of the list. -/
theorem assignList_keep (h : Heap α) (t : Tensor) (l : List α) (hv : t.Valid h)
    (hl : l.length < 2 ^ 31) (heq : t.shape.eq (ShapeBase.ctorArgs l.length []) = true) :
    ∃ h', t.assignList h l = .ok (t, h') ∧ t.shape.Size = l.length ∧
      h'.blocks.length = h.blocks.length ∧
      (∀ c, t.dptr ≠ some c → h'.blocks[c]? = h.blocks[c]?) ∧
      (match t.dptr with
        | none => l = [] ∧ h' = h
        | some b => h'.blocks[b]? = some (some (l.map some))) := by
  have hl' : l.length < SIZE_MOD := lt_trans hl (by decide)
  have hshape : t.shape.shape = [l.length] := by
    have := heq
    simp only [ShapeBase.eq, ShapeBase.ctorArgs, List.map_cons, List.map_nil, beq_iff_eq] at this
    rw [this, Nat.mod_eq_of_lt hl']
  have hsz : t.shape.Size = l.length := hv.2 _ hl hshape
  have hbuf := hv.1
  cases hp : t.dptr with
  | none =>
    rw [hp] at hbuf
    have h0 : l.length = 0 := by
      rcases hbuf with hnil | hz
      · rw [hnil] at hshape
        cases hshape
      · omega
    have hnil : l = [] := List.length_eq_zero.mp h0
    have hst : Heap.storeFrom t.dptr h 0 l = .ok h := by
      rw [hnil]
      rfl
    refine ⟨h, ?_, hsz, rfl, fun _ _ => rfl, hnil, rfl⟩
    simp [assignList, heq, hst, bind, Except.bind, pure, Except.pure]
  | some b =>
    rw [hp] at hbuf
    obtain ⟨cs, hb, hlen⟩ := hbuf
    have hblt : b < h.blocks.length := by
      rcases List.getElem?_eq_some.mp hb with ⟨hblt, _⟩
      exact hblt
    obtain ⟨cs', hrun, hlen', hnew, _⟩ := Heap.storeFrom_block b l h 0 cs hb (by omega)
    have hcs : cs' = l.map some := by
      apply List.ext_getElem?
      intro j
      by_cases hj : j < l.length
      · rw [hnew j (by omega) (by omega)]
        simp
      · rw [List.getElem?_eq_none (by omega), List.getElem?_eq_none (by simp; omega)]
    refine ⟨⟨h.blocks.set b (some cs')⟩, ?_, hsz, by simp, ?_, ?_⟩
    · simp [assignList, heq, hp, hrun, bind, Except.bind, pure, Except.pure]
    · intro c hc
      have hbc : b ≠ c := fun hbc => hc (by rw [hbc])
      simp [List.getElem?_set_ne hbc]
    · simp [List.getElem?_set_self hblt, hcs]

/-- The branch of `operator=(std::initializer_list)` that replaces the buffer:
taken on a valid tensor of any other shape, it ends, the old buffer is
released, the shape is `{l.size()}` and the new buffer (none for an empty
list) is a new block holding the elements of the list. -/
theorem assignList_replace (h : Heap α) (t : Tensor) (l : List α) (hv : t.Valid h)
    (hne : t.shape.eq (ShapeBase.ctorArgs l.length []) = false) :
    ∃ h1, _M_deallocate h t.dptr t.shape.Size = .ok h1 ∧ h1.blocks.length = h.blocks.length ∧
      (∀ b, t.dptr = some b → h1.blocks[b]? = some none) ∧
      (∀ c, t.dptr ≠ some c → h1.blocks[c]? = h.blocks[c]?) ∧
      t.assignList h l = .ok
        (if l.length = 0 then (⟨none, t.shape.assignList [l.length]⟩, h1)
         else (⟨some h.blocks.length, t.shape.assignList [l.length]⟩,
           ⟨h1.blocks ++ [some (l.map some)]⟩)) := by
  obtain ⟨h1, hd, hlen, hfree, hframe⟩ := _M_deallocate_valid h t hv
  refine ⟨h1, hd, hlen, hfree, hframe, ?_⟩
  simp only [assignList, hne, hd, bind, Except.bind, _M_allocate_and_copy_list_eq, hlen]
  by_cases h0 : l.length = 0
  · simp [h0, pure, Except.pure]
  · simp [h0, pure, Except.pure]

end Tensor

end mou

/-! ## Copy assignment, literal assignment and buffer reuse -/

namespace mou

/-- The length stored by `shape = {n}`. -/
theorem assignList_len (s : ShapeBase) (n : Nat) :
    (s.assignList [n]).Size = toSizeT (toInt (toSizeT 1 * (n % SIZE_MOD) % SIZE_MOD)) := rfl

theorem toSizeT_one : toSizeT 1 = 1 := by
  unfold toSizeT
  norm_num

theorem toInt_small (n : Nat) (hn : n < 2 ^ 31) : toInt n = (n : Int) := by
  have h3 : n % 2 ^ 32 = n := Nat.mod_eq_of_lt (by omega)
  unfold toInt
  rw [h3, if_pos hn]

theorem toSizeT_small (n : Nat) (hn : n < 2 ^ 31) : toSizeT (n : Int) = n := by
  unfold toSizeT
  have : ((n : Int) % 2 ^ 64) = (n : Int) := Int.emod_eq_of_lt (by omega) (by omega)
  rw [this]
  simp

/-- The length stored by `shape = {n}` is `n` as long as `n` fits an `int`. -/
theorem assignList_len_small (s : ShapeBase) (n : Nat) (hn : n < 2 ^ 31) :
    (s.assignList [n]).Size = n := by
  have h2 : n % SIZE_MOD = n := Nat.mod_eq_of_lt (by simp only [SIZE_MOD]; omega)
  rw [assignList_len, toSizeT_one, Nat.one_mul, h2, h2, toInt_small n hn, toSizeT_small n hn]

theorem bigLen_mod : bigLen % SIZE_MOD = bigLen := by decide

theorem toInt_bigLen : toInt bigLen = -2147483648 := by
  unfold toInt bigLen
  norm_num

theorem toSizeT_neg : toSizeT (-2147483648) = 2 ^ 64 - 2 ^ 31 := by
  unfold toSizeT
  norm_num
  rfl

theorem accumulate_bigLen :
    toSizeT (toInt (toSizeT 1 * (bigLen % SIZE_MOD) % SIZE_MOD)) = 2 ^ 64 - 2 ^ 31 := by
  rw [toSizeT_one, Nat.one_mul, bigLen_mod, bigLen_mod, toInt_bigLen, toSizeT_neg]

/-- The length stored by `shape = {2147483648}` is `2 ^ 64 - 2 ^ 31`. -/
theorem assignList_len_big (s : ShapeBase) : (s.assignList [bigLen]).Size = 2 ^ 64 - 2 ^ 31 := by
  rw [assignList_len, accumulate_bigLen]

/-- C8, at the failing input: after `Tensor<float> a{1, 2, 3};
Tensor<float> b(std::move(a)); Tensor<float> c{Shape()}; a = c;` the shapes of
`a` and `c` compare equal, yet `a.Shape_().Size()` is 3 and
`c.Shape_().Size()` is 0, and `a[0]` reads through a null pointer. -/
theorem copy_assign_moved_from :
    ∃ a c h, movedFromScenario = .ok (a, c, h) ∧ a.Shape_.eq c.Shape_ = true ∧
      a.Shape_.Size = 3 ∧ c.Shape_.Size = 0 ∧ a.dptr = none ∧ a.get h 0 = .error .undefined :=
  ⟨⟨none, ⟨[], 3⟩⟩, ⟨none, ⟨[], 0⟩⟩, ⟨[some [some 1, some 2, some 3]]⟩, rfl, rfl, rfl, rfl, rfl, rfl⟩

/-- The bound of `2 ^ 31` elements is where the `int` accumulator of
`shape = {l.size()}` stops holding the length: were a list of `2 ^ 31`
elements assigned to the tensor `Tensor<float> t{Shape()}`, the tensor would
hold the list with a `Shape_().Size()` of `2 ^ 64 - 2 ^ 31`. -/
theorem assignList_big :
    ∃ t' h', (⟨none, ShapeBase.ctor⟩ : Tensor).assignList (Heap.empty : Heap Flt)
        (List.replicate bigLen 0) = .ok (t', h') ∧
      t'.Shape_.Dims = 1 ∧ (List.replicate bigLen (0 : Flt)).length = 2 ^ 31 ∧
      t'.Shape_.Size = 2 ^ 64 - 2 ^ 31 ∧
      t'.Shape_.Size ≠ (List.replicate bigLen (0 : Flt)).length := by
  have hv : (⟨none, ShapeBase.ctor⟩ : Tensor).Valid (Heap.empty : Heap Flt) :=
    ⟨Or.inl rfl, fun m _ hm => by cases hm⟩
  have hlen : (List.replicate bigLen (0 : Flt)).length = bigLen := List.length_replicate _ _
  have hne : (⟨none, ShapeBase.ctor⟩ : Tensor).shape.eq
      (ShapeBase.ctorArgs (List.replicate bigLen (0 : Flt)).length []) = false := by
    simp [ShapeBase.eq, ShapeBase.ctor, ShapeBase.ctorArgs]
  obtain ⟨h1, _, _, _, _, hrun⟩ := Tensor.assignList_replace _ _ _ hv hne
  have h0 : ¬ (List.replicate bigLen (0 : Flt)).length = 0 := by
    rw [hlen]
    decide
  simp only [h0, if_false] at hrun
  refine ⟨_, _, hrun, ?_, ?_, ?_, ?_⟩
  · simp [Tensor.Shape_, ShapeBase.Dims, ShapeBase.assignList, SIZE_MOD]
  · rw [hlen]; rfl
  · show (ShapeBase.ctor.assignList [(List.replicate bigLen (0 : Flt)).length]).Size = _
    rw [hlen]
    exact assignList_len_big _
  · show (ShapeBase.ctor.assignList [(List.replicate bigLen (0 : Flt)).length]).Size ≠ _
    rw [hlen, assignList_len_big]
    decide

end mou

namespace mou

/-- A single extent built by the variadic constructor is the length. -/
theorem ctorArgs_single (a : Nat) (as : List Nat) (m : Nat)
    (hm : (ShapeBase.ctorArgs a as).shape = [m]) : (ShapeBase.ctorArgs a as).Size = m := by
  cases as with
  | nil =>
    simp only [ShapeBase.ctorArgs, List.map_cons, List.map_nil, List.cons.injEq, and_true] at hm
    simp only [ShapeBase.ctorArgs, ShapeBase.Size, List.foldl_nil, hm]
  | cons x xs => simp [ShapeBase.ctorArgs] at hm

/-- A single extent below `2 ^ 31` built by the initializer-list constructor
is the length. -/
theorem ctorList_single (l : List Nat) (m : Nat) (hlt : m < 2 ^ 31)
    (hm : (ShapeBase.ctorList l).shape = [m]) : (ShapeBase.ctorList l).Size = m := by
  have h2 : m % SIZE_MOD = m := Nat.mod_eq_of_lt (lt_trans hlt (by decide))
  have hl : l.map (fun x => x % SIZE_MOD) = [m] := hm
  have hsz : (ShapeBase.ctorList l).Size = (ShapeBase.ctor.assignList [m]).Size := by
    simp only [ShapeBase.ctorList, ShapeBase.assignList, ShapeBase.Size, hl, List.map_cons,
      List.map_nil, h2]
  rw [hsz, assignList_len_small _ m hlt]

/-- The constructor `Tensor(Shape shape)` gives a tensor in a valid state, on
every shape whose single extent, if below `2 ^ 31`, is its length. -/
theorem ctorShape_valid {α : Type} (h : Heap α) (s : ShapeBase)
    (hs : ∀ m, m < 2 ^ 31 → s.shape = [m] → s.Size = m) :
    (Tensor.ctorShape h s).1.Valid (Tensor.ctorShape h s).2 := by
  by_cases h0 : s.Size = 0
  · have hc : Tensor.ctorShape h s = (⟨none, s⟩, h) := by
      simp [Tensor.ctorShape, Tensor._M_allocate, h0]
    rw [hc]
    exact ⟨Or.inr h0, hs⟩
  · have hc : Tensor.ctorShape h s =
        (⟨some h.blocks.length, s⟩, ⟨h.blocks ++ [some (List.replicate s.Size none)]⟩) := by
      simp [Tensor.ctorShape, Tensor._M_allocate, h0, Heap.allocate]
    rw [hc]
    exact ⟨⟨List.replicate s.Size none, by simp, by simp⟩, hs⟩

/-- The tensors `Tensor(Shape(a, as...))` and `Tensor(Shape{l...})` are in a
valid state, whatever the extents. -/
theorem ctorShape_valid_forms {α : Type} (h : Heap α) (a : Nat) (as l : List Nat) :
    (Tensor.ctorShape h (ShapeBase.ctorArgs a as)).1.Valid
        (Tensor.ctorShape h (ShapeBase.ctorArgs a as)).2 ∧
      (Tensor.ctorShape h (ShapeBase.ctorList l)).1.Valid
        (Tensor.ctorShape h (ShapeBase.ctorList l)).2 :=
  ⟨ctorShape_valid h _ (fun m _ hm => ctorArgs_single a as m hm),
    ctorShape_valid h _ (fun m hlt hm => ctorList_single l m hlt hm)⟩

/-- What a move leaves in its source is a tensor in a valid state. -/
theorem ctorMove_valid {α : Type} (h : Heap α) (src : Tensor) :
    (Tensor.ctorMove src).2.Valid h :=
  ⟨Or.inl rfl, fun m _ hm => by cases hm⟩

/-- The tensor `Tensor<float>(Shape{4294967299})` has the extent 4294967299,
the length 3 and a buffer of 3 elements. -/
theorem ctorShape_wrapped :
    Tensor.ctorShape (Heap.empty : Heap Flt) (ShapeBase.ctorList [4294967299]) =
      (⟨some 0, ⟨[4294967299], 3⟩⟩, ⟨[some [none, none, none]]⟩) := rfl

/-- C10, as the claim states it, fails: the tensor `t` of shape `(2, 3)` has
`Shape_().Size() == 6`, and the assignment of the six-element literal
`{1, 2, 3, 4, 5, 6}` releases its buffer (block 0) and allocates a new one. -/
theorem buffer_reuse_counterexample :
    ∃ t h t' h', reshapedScenario = .ok ((t, h), (t', h')) ∧
      t.Shape_.Size = 6 ∧ ([1, 2, 3, 4, 5, 6] : List Flt).length = 6 ∧
      t.dptr = some 0 ∧ t'.dptr = some 1 ∧ h'.blocks[0]? = some none ∧
      h'.allocations = h.allocations + 1 :=
  ⟨⟨some 0, ⟨[2, 3], 6⟩⟩, ⟨[some [none, none, none, none, none, none]]⟩,
    ⟨some 1, ⟨[6], 6⟩⟩, ⟨[none, some [some 1, some 2, some 3, some 4, some 5, some 6]]⟩,
    rfl, rfl, rfl, rfl, rfl, rfl, rfl⟩

/-- C10, amended. Buffer reuse is decided by the shape, not by the length.
When a literal sequence `l` of fewer than `2 ^ 31` elements is assigned to a
container in a valid state, the assignment ends, and the container keeps its
buffer, with no deallocation and no allocation, if its shape is the
one-dimensional `(l.size())`; for any other shape, also one of the same
`Size()`, it releases its buffer and takes a newly allocated one (none, and
no allocation, for an empty list); a container whose `Size()` differs from
`l.size()` always does the latter.  When an expression is assigned, whatever
the expression, the length of the target and the lengths of the leaves, and
whether the assignment ends or stops at a fault, no block is deallocated and
none allocated, and an assignment that ends leaves the container its buffer
and its shape. -/
theorem buffer_reuse {α : Type} :
    (∀ (h : Heap α) (t : Tensor) (l : List α), t.Valid h → l.length < 2 ^ 31 →
      ∃ t' h', t.assignList h l = .ok (t', h') ∧
        (t.Shape_.Size ≠ l.length → t.Shape_.eq (ShapeBase.ctorArgs l.length []) = false) ∧
        (t.Shape_.eq (ShapeBase.ctorArgs l.length []) = true →
          t'.dptr = t.dptr ∧ h'.allocations = h.allocations ∧
          ∀ c : Nat, h'.blocks[c]? = some none ↔ h.blocks[c]? = some none) ∧
        (t.Shape_.eq (ShapeBase.ctorArgs l.length []) = false →
          (∀ b, t.dptr = some b → h'.blocks[b]? = some none) ∧
          (l ≠ [] → t'.dptr = some h.blocks.length ∧ h'.allocations = h.allocations + 1) ∧
          (l = [] → t'.dptr = none ∧ h'.allocations = h.allocations))) ∧
    (∀ (h : Heap α) (t : Tensor) (e : Exp α),
      (t.assignTrace e (t.shape.Size + 1) 0 h).2.allocations = h.allocations ∧
      (∀ c : Nat, (t.assignTrace e (t.shape.Size + 1) 0 h).2.blocks[c]? = some none
        ↔ h.blocks[c]? = some none) ∧
      t.assignExp h e =
        (match (t.assignTrace e (t.shape.Size + 1) 0 h).1 with
          | none => .ok (t, (t.assignTrace e (t.shape.Size + 1) 0 h).2)
          | some f => .error f) ∧
      ∀ t' h', t.assignExp h e = .ok (t', h') →
        t' = t ∧ h'.allocations = h.allocations ∧
        ∀ c : Nat, h'.blocks[c]? = some none ↔ h.blocks[c]? = some none) := by
  refine ⟨?_, ?_⟩
  · intro h t l hv hl
    cases heq : t.shape.eq (ShapeBase.ctorArgs l.length []) with
    | true =>
      obtain ⟨h', hrun, hsz, hlen, hframe, hbuf⟩ := Tensor.assignList_keep h t l hv hl heq
      refine ⟨t, h', hrun, fun hne => absurd hsz hne, fun _ => ⟨rfl, hlen, ?_⟩,
        fun hf => Bool.noConfusion (heq.symm.trans hf)⟩
      intro c
      by_cases hc : t.dptr = some c
      · have hlive := hv.1
        rw [hc] at hbuf hlive
        obtain ⟨cs, hcs, _⟩ := hlive
        simp only at hbuf
        rw [hbuf, hcs]
        simp
      · rw [hframe c hc]
    | false =>
      obtain ⟨h1, _, hlen, hfree, hframe, hrun⟩ := Tensor.assignList_replace h t l hv heq
      have hlt : ∀ b, t.dptr = some b → b < h1.blocks.length := by
        intro b hb
        rcases List.getElem?_eq_some.mp (hfree b hb) with ⟨hblt, _⟩
        exact hblt
      by_cases h0 : l.length = 0
      · simp only [h0, if_true] at hrun
        have hnil : l = [] := List.length_eq_zero.mp h0
        refine ⟨_, _, hrun, fun _ => heq, fun ht => Bool.noConfusion (ht.symm.trans heq),
          fun _ => ⟨hfree, fun hne => absurd hnil hne, fun _ => ⟨rfl, hlen⟩⟩⟩
      · simp only [h0, if_false] at hrun
        have hnil : l ≠ [] := fun hnil => h0 (by rw [hnil]; rfl)
        refine ⟨_, _, hrun, fun _ => heq, fun ht => Bool.noConfusion (ht.symm.trans heq),
          fun _ => ⟨?_, fun _ => ⟨rfl, ?_⟩, fun hl0 => absurd hl0 hnil⟩⟩
        · intro b hb
          show (h1.blocks ++ [some (l.map some)])[b]? = some none
          rw [List.getElem?_append_left (hlt b hb)]
          exact hfree b hb
        · simp [Heap.allocations, hlen]
  · intro h t e
    obtain ⟨f1, f2, _⟩ := Tensor.assignTrace_frame t e (t.shape.Size + 1) 0 h
    have hrun := Tensor.assignExp_trace h t e
    refine ⟨f1, f2, hrun, ?_⟩
    intro t' h' hok
    rw [hrun] at hok
    cases hf : (t.assignTrace e (t.shape.Size + 1) 0 h).1 with
    | some f =>
      rw [hf] at hok
      cases hok
    | none =>
      rw [hf] at hok
      have hpair := Except.ok.inj hok
      have ht : t = t' := congrArg Prod.fst hpair
      have hh : (t.assignTrace e (t.shape.Size + 1) 0 h).2 = h' := congrArg Prod.snd hpair
      rw [← hh]
      exact ⟨ht.symm, f1, f2⟩

/-- C10, amended, on the tensor `A{1, 2, 3}` of the test: the literal
`{7, 8, 9}` and the expression `F<div>(B, C)` are stored in the buffer it has. -/
theorem buffer_reuse_witness :
    testA.Valid testStore ∧ ([7, 8, 9] : List Flt).length < 2 ^ 31 ∧
      (∃ t' h', testA.assignList testStore [7, 8, 9] = .ok (t', h') ∧ t'.dptr = testA.dptr ∧
        h'.allocations = testStore.allocations) ∧
      (∃ h', testA.assignExp testStore (F div.Map (.leaf testB) (.leaf testC)) = .ok (testA, h') ∧
        h'.allocations = testStore.allocations) := by
  have hv : testA.Valid testStore :=
    ⟨⟨[some 1, some 2, some 3], rfl, rfl⟩, fun m _ hm => by cases hm; rfl⟩
  refine ⟨hv, by decide, ?_, ?_⟩
  · obtain ⟨t', h', hrun, _, hkeep, _⟩ := buffer_reuse.1 testStore testA [7, 8, 9] hv (by decide)
    exact ⟨t', h', hrun, (hkeep rfl).1, (hkeep rfl).2.1⟩
  · obtain ⟨f1, _, hrun, _⟩ := buffer_reuse.2 testStore testA
      (F div.Map (.leaf testB) (.leaf testC))
    have hr : (testA.assignTrace (F div.Map (.leaf testB) (.leaf testC))
        (testA.shape.Size + 1) 0 testStore).1 = none := rfl
    rw [hr] at hrun
    exact ⟨_, hrun, f1⟩

end mou

/-! ## Partial sizes of a shape -/

namespace mou

namespace ShapeBase

/-- A product formed step by step in `size_t` is the product modulo `2 ^ 64`. -/
theorem foldl_mul_mod (l : List Nat) :
    ∀ sz : Nat, l.foldl (fun acc d => acc * d % SIZE_MOD) sz % SIZE_MOD
      = sz * l.prod % SIZE_MOD := by
  induction l with
  | nil => intro sz; simp
  | cons d l ih =>
    intro sz
    simp only [List.foldl_cons, List.prod_cons]
    rw [ih, Nat.mod_mul_mod, Nat.mul_assoc]

theorem foldl_mul_lt (l : List Nat) :
    ∀ sz : Nat, sz < SIZE_MOD → l.foldl (fun acc d => acc * d % SIZE_MOD) sz < SIZE_MOD := by
  induction l with
  | nil => intro sz hsz; simpa using hsz
  | cons d l ih =>
    intro sz _
    simp only [List.foldl_cons]
    exact ih _ (Nat.mod_lt _ (by decide))

theorem foldl_mul_eq (l : List Nat) (sz : Nat) (hsz : sz < SIZE_MOD) :
    l.foldl (fun acc d => acc * d % SIZE_MOD) sz = sz * l.prod % SIZE_MOD := by
  rw [← foldl_mul_mod, Nat.mod_eq_of_lt (foldl_mul_lt l sz hsz)]

/-- The loop of `Size(start, end)` inside the extents: it ends with the running
product times the extents from `i` to `end - 1`, formed in `size_t`. -/
theorem SizeLoop_ok (s : ShapeBase) (stop : Nat) (hstop : stop ≤ s.shape.length) :
    ∀ (fuel i sz : Nat), stop - i < fuel →
      SizeLoop s stop fuel i sz
        = .ok (((s.shape.drop i).take (stop - i)).foldl (fun acc d => acc * d % SIZE_MOD) sz) := by
  intro fuel
  induction fuel with
  | zero => intro i sz hfuel; omega
  | succ fuel ih =>
    intro i sz hfuel
    by_cases hlt : i < stop
    · have hi : i < s.shape.length := by omega
      have hd : s.shape[i]? = some s.shape[i] := List.getElem?_eq_getElem hi
      have hdrop : s.shape.drop i = s.shape[i] :: s.shape.drop (i + 1) :=
        List.drop_eq_getElem_cons hi
      have hsub : stop - i = (stop - (i + 1)) + 1 := by omega
      simp only [SizeLoop, hlt, if_true, hd]
      rw [ih (i + 1) _ (by omega), hdrop, hsub, List.take_succ_cons, List.foldl_cons]
    · have h0 : stop - i = 0 := by omega
      simp [SizeLoop, hlt, h0]

/-- The loop of `Size(start, end)` when `end` is past the extents: it throws. -/
theorem SizeLoop_throw (s : ShapeBase) (stop : Nat) (hstop : s.shape.length < stop) :
    ∀ (fuel i sz : Nat), stop - i < fuel → i < stop →
      SizeLoop s stop fuel i sz = .error .out_of_range := by
  intro fuel
  induction fuel with
  | zero => intro i sz hfuel; omega
  | succ fuel ih =>
    intro i sz hfuel hlt
    simp only [SizeLoop, hlt, if_true]
    cases hd : s.shape[i]? with
    | none => rfl
    | some d =>
      have hi : i < s.shape.length := by
        rcases List.getElem?_eq_some.mp hd with ⟨hi, _⟩
        exact hi
      exact ih (i + 1) _ (by omega) (by omega)

/-- The member `Size(start, end)` in closed form. -/
theorem SizeRange_eq (s : ShapeBase) (start stop : Nat) :
    s.SizeRange start stop =
      if start < stop ∧ s.Dims < stop then .error .out_of_range
      else .ok (((s.shape.drop start).take (stop - start)).prod % SIZE_MOD) := by
  by_cases hlt : start < stop
  · by_cases hd : s.shape.length < stop
    · simp only [SizeRange, Dims, hlt, hd, and_self, if_true]
      exact SizeLoop_throw s stop hd _ _ _ (by omega) hlt
    · simp only [SizeRange, Dims, hlt, hd, and_false, if_false]
      rw [SizeLoop_ok s stop (by omega) _ _ _ (by omega), foldl_mul_eq _ 1 (by decide),
        Nat.one_mul]
  · have h0 : stop - start = 0 := by omega
    simp [SizeRange, SizeLoop, hlt, h0, SIZE_MOD]

end ShapeBase

end mou

namespace mou

/-- C18. For every shape `s` and indices `start`, `end`: `s.Size(start, end)`
throws `std::out_of_range` if and only if `start < end` and `end > s.Dims()`,
and otherwise returns the product of the extents at the positions
`start .. end - 1`, formed in `size_t` (the product itself when it is below
`2 ^ 64`; 1 when `start >= end`); `s.Size(i)` and `s[i]` return the `i`-th
extent and throw if and only if `i >= s.Dims()`; and for
`start <= mid <= end <= s.Dims()`, `Size(start, end)` is
`Size(start, mid) * Size(mid, end)` in `size_t`. -/
theorem partial_sizes (s : ShapeBase) (start stop mid i : Nat) :
    (s.SizeRange start stop = .error .out_of_range ↔ start < stop ∧ s.Dims < stop) ∧
    (¬ (start < stop ∧ s.Dims < stop) →
      s.SizeRange start stop
        = .ok (((s.shape.drop start).take (stop - start)).prod % SIZE_MOD) ∧
      (((s.shape.drop start).take (stop - start)).prod < SIZE_MOD →
        s.SizeRange start stop = .ok ((s.shape.drop start).take (stop - start)).prod)) ∧
    (stop ≤ start → s.SizeRange start stop = .ok 1) ∧
    (s.SizeAt i = s.index i) ∧
    (s.index i = .error .out_of_range ↔ s.Dims ≤ i) ∧
    (∀ d, s.index i = .ok d ↔ s.shape[i]? = some d) ∧
    (start ≤ mid → mid ≤ stop → stop ≤ s.Dims →
      ∃ a b c, s.SizeRange start stop = .ok a ∧ s.SizeRange start mid = .ok b ∧
        s.SizeRange mid stop = .ok c ∧ a = b * c % SIZE_MOD) := by
  refine ⟨?_, ?_, ?_, rfl, ?_, ?_, ?_⟩
  · rw [ShapeBase.SizeRange_eq]
    by_cases hc : start < stop ∧ s.Dims < stop
    · simp [hc]
    · simp only [hc, if_false, iff_false]
      intro h
      cases h
  · intro hc
    rw [ShapeBase.SizeRange_eq]
    simp only [hc, if_false, true_and]
    intro hlt
    rw [Nat.mod_eq_of_lt hlt]
  · intro hle
    rw [ShapeBase.SizeRange_eq]
    have h0 : stop - start = 0 := by omega
    have hc : ¬ (start < stop ∧ s.Dims < stop) := fun hc => by omega
    simp [hc, h0, SIZE_MOD]
  · simp only [ShapeBase.index, ShapeBase.Dims]
    cases hd : s.shape[i]? with
    | none =>
      simp only [true_iff]
      exact List.getElem?_eq_none_iff.mp hd
    | some d =>
      have hi : i < s.shape.length := by
        rcases List.getElem?_eq_some.mp hd with ⟨hi, _⟩
        exact hi
      simp only [false_iff, reduceCtorEq]
      omega
  · intro d
    simp only [ShapeBase.index]
    cases hd : s.shape[i]? with
    | none => simp
    | some d' =>
      constructor
      · intro h
        cases h
        rfl
      · intro h
        cases h
        rfl
  · intro h1 h2 h3
    have hc : ∀ a b, b ≤ s.Dims → ¬ (a < b ∧ s.Dims < b) := fun a b hb hc => by omega
    refine ⟨((s.shape.drop start).take (stop - start)).prod % SIZE_MOD,
      ((s.shape.drop start).take (mid - start)).prod % SIZE_MOD,
      ((s.shape.drop mid).take (stop - mid)).prod % SIZE_MOD, ?_, ?_, ?_, ?_⟩
    · rw [ShapeBase.SizeRange_eq, if_neg (hc _ _ h3)]
    · rw [ShapeBase.SizeRange_eq, if_neg (hc _ _ (by omega))]
    · rw [ShapeBase.SizeRange_eq, if_neg (hc _ _ h3)]
    · have hsplit : (s.shape.drop start).take (stop - start)
          = (s.shape.drop start).take (mid - start) ++ (s.shape.drop mid).take (stop - mid) := by
        have hsum : stop - start = (mid - start) + (stop - mid) := by omega
        rw [hsum, List.take_add, List.drop_drop]
        congr 3
        omega
      rw [hsplit, List.prod_append, Nat.mul_mod]

/-- C18, on the shape `Shape(2, 3, 4)`. -/
theorem partial_sizes_witness :
    (ShapeBase.ctorArgs 2 [3, 4]).SizeRange 0 3 = .ok 24 ∧
      (ShapeBase.ctorArgs 2 [3, 4]).SizeRange 1 4 = .error .out_of_range ∧
      (ShapeBase.ctorArgs 2 [3, 4]).SizeRange 5 4 = .ok 1 ∧
      (ShapeBase.ctorArgs 2 [3, 4]).index 3 = .error .out_of_range ∧
      (ShapeBase.ctorArgs 2 [3, 4]).SizeAt 1 = .ok 3 ∧
      ∃ a b c, (ShapeBase.ctorArgs 2 [3, 4]).SizeRange 0 3 = .ok a ∧
        (ShapeBase.ctorArgs 2 [3, 4]).SizeRange 0 1 = .ok b ∧
        (ShapeBase.ctorArgs 2 [3, 4]).SizeRange 1 3 = .ok c ∧ a = b * c % SIZE_MOD :=
  ⟨rfl, rfl, rfl, rfl, rfl,
    (partial_sizes (ShapeBase.ctorArgs 2 [3, 4]) 0 3 1 0).2.2.2.2.2.2 (by decide) (by decide)
      (by decide)⟩

end mou

/-! ## The cached length of a shape -/

namespace mou

namespace ShapeBase

/-- The length cached by the variadic constructor is the product of the
extents modulo `2 ^ 64`. -/
theorem ctorArgs_Size (a : Nat) (as : List Nat) :
    (ctorArgs a as).Size = ((a :: as).map (fun x => x % SIZE_MOD)).prod % SIZE_MOD := by
  have hfold : as.foldl (fun acc x => acc * (x % SIZE_MOD) % SIZE_MOD) (a % SIZE_MOD)
      = (as.map (fun x => x % SIZE_MOD)).foldl (fun acc d => acc * d % SIZE_MOD)
          (a % SIZE_MOD) := by
    rw [List.foldl_map]
  simp only [ctorArgs, Size, hfold, List.map_cons, List.prod_cons]
  exact foldl_mul_eq _ _ (Nat.mod_lt _ (by decide))

/-- The `int` accumulator is exact as long as no product of a prefix of the
extents reaches `2 ^ 31`. -/
theorem accumulate_small (l : List Nat) :
    ∀ p : Nat, (∀ k, k ≤ l.length → p * (l.take k).prod < 2 ^ 31) →
      accumulate l (p : Int) = ((p * l.prod : Nat) : Int) := by
  induction l with
  | nil => intro p _; simp [accumulate]
  | cons x l ih =>
    intro p hp
    have h0 : p < 2 ^ 31 := by simpa using hp 0 (by simp)
    have h1 : p * x < 2 ^ 31 := by simpa using hp 1 (by simp)
    have hmod : p * x % SIZE_MOD = p * x := Nat.mod_eq_of_lt (by simp only [SIZE_MOD]; omega)
    have hstep : toInt (toSizeT (p : Int) * x % SIZE_MOD) = ((p * x : Nat) : Int) := by
      rw [toSizeT_small p h0, hmod, toInt_small _ h1]
    have hrest : ∀ k, k ≤ l.length → p * x * (l.take k).prod < 2 ^ 31 := by
      intro k hk
      have := hp (k + 1) (by simpa using hk)
      simpa [List.take_succ_cons, Nat.mul_assoc] using this
    have := ih (p * x) hrest
    simp only [accumulate] at this ⊢
    rw [List.foldl_cons, hstep, this, List.prod_cons, Nat.mul_assoc]

/-- The length cached by the initializer-list forms is the product of the
extents as long as no product of a prefix of the extents reaches `2 ^ 31`. -/
theorem ctorList_Size_small (l : List Nat)
    (hl : ∀ k, k ≤ l.length → ((l.map (fun x => x % SIZE_MOD)).take k).prod < 2 ^ 31) :
    (ctorList l).Size = (l.map (fun x => x % SIZE_MOD)).prod := by
  have hacc := accumulate_small (l.map (fun x => x % SIZE_MOD)) 1
    (fun k hk => by simpa using hl k (by simpa using hk))
  have hprod : (l.map (fun x => x % SIZE_MOD)).prod < 2 ^ 31 := by
    have := hl l.length (le_refl _)
    rwa [List.take_of_length_le (by simp)] at this
  simp only [ctorList, Size]
  rw [show ((1 : Int)) = ((1 : Nat) : Int) from rfl, hacc, Nat.one_mul, toSizeT_small _ hprod]

/-- The member `Size(0, Dims())` is the product of all the extents modulo `2 ^ 64`. -/
theorem SizeRange_all (s : ShapeBase) : s.SizeRange 0 s.Dims = .ok (s.shape.prod % SIZE_MOD) := by
  rw [SizeRange_eq]
  have hc : ¬ (0 < s.Dims ∧ s.Dims < s.Dims) := fun hc => by omega
  simp [hc, Dims]

end ShapeBase

/-- C14, as the claim states it, fails.  The default constructor gives
`Size() == 0`, and `Size(0, Dims())` is the empty product 1.  The
initializer-list constructor gives `Shape{65536, 65536}` the `Size()` 0, and
`Size(0, Dims())` is `2 ^ 32`; this shape compares equal to
`Shape(65536, 65536)`, whose `Size()` is `2 ^ 32`. -/
theorem shape_size_counterexample :
    ShapeBase.ctor.Size = 0 ∧ ShapeBase.ctor.SizeRange 0 ShapeBase.ctor.Dims = .ok 1 ∧
      (ShapeBase.ctorList [65536, 65536]).Size = 0 ∧
      (ShapeBase.ctorList [65536, 65536]).SizeRange 0 (ShapeBase.ctorList [65536, 65536]).Dims
        = .ok 4294967296 ∧
      (ShapeBase.ctorArgs 65536 [65536]).eq (ShapeBase.ctorList [65536, 65536]) = true ∧
      (ShapeBase.ctorArgs 65536 [65536]).Size = 4294967296 :=
  ⟨rfl, rfl, rfl, rfl, rfl, rfl⟩

/-- C14, amended. A shape built by the variadic constructor has
`Size() == Size(0, Dims())`, the product of its extents modulo `2 ^ 64`; so has
a shape built by the initializer-list constructor or by
`operator=(initializer_list)` as long as no product of a prefix of its extents
reaches `2 ^ 31`; the default constructor gives `Size() == 0`; and two shapes
with `Size() == Size(0, Dims())` that compare equal with `operator==` have the
same `Size()`. -/
theorem shape_size_invariant :
    (∀ (a : Nat) (as : List Nat),
      (ShapeBase.ctorArgs a as).SizeRange 0 (ShapeBase.ctorArgs a as).Dims
        = .ok (ShapeBase.ctorArgs a as).Size ∧
      (ShapeBase.ctorArgs a as).Size
        = ((a :: as).map (fun x => x % SIZE_MOD)).prod % SIZE_MOD) ∧
    (∀ (s0 : ShapeBase) (l : List Nat),
      (∀ k, k ≤ l.length → ((l.map (fun x => x % SIZE_MOD)).take k).prod < 2 ^ 31) →
      (ShapeBase.ctorList l).SizeRange 0 (ShapeBase.ctorList l).Dims
        = .ok (ShapeBase.ctorList l).Size ∧
      (s0.assignList l).SizeRange 0 (s0.assignList l).Dims = .ok (s0.assignList l).Size ∧
      (ShapeBase.ctorList l).Size = (l.map (fun x => x % SIZE_MOD)).prod ∧
      (s0.assignList l).Size = (l.map (fun x => x % SIZE_MOD)).prod) ∧
    ShapeBase.ctor.Size = 0 ∧
    (∀ s1 s2 : ShapeBase, s1.SizeRange 0 s1.Dims = .ok s1.Size →
      s2.SizeRange 0 s2.Dims = .ok s2.Size → s1.eq s2 = true → s1.Size = s2.Size) := by
  refine ⟨?_, ?_, rfl, ?_⟩
  · intro a as
    refine ⟨?_, ShapeBase.ctorArgs_Size a as⟩
    rw [ShapeBase.SizeRange_all, ShapeBase.ctorArgs_Size]
    rfl
  · intro s0 l hl
    have hsz := ShapeBase.ctorList_Size_small l hl
    have hlt : (l.map (fun x => x % SIZE_MOD)).prod < SIZE_MOD := by
      have := hl l.length (le_refl _)
      rw [List.take_of_length_le (by simp)] at this
      exact lt_trans this (by decide)
    have hinv : (ShapeBase.ctorList l).SizeRange 0 (ShapeBase.ctorList l).Dims
        = .ok (ShapeBase.ctorList l).Size := by
      rw [ShapeBase.SizeRange_all, hsz]
      show Except.ok ((l.map (fun x => x % SIZE_MOD)).prod % SIZE_MOD) = _
      rw [Nat.mod_eq_of_lt hlt]
    exact ⟨hinv, hinv, hsz, hsz⟩
  · intro s1 s2 h1 h2 heq
    rw [ShapeBase.SizeRange_all] at h1 h2
    have hshape : s1.shape = s2.shape := by simpa [ShapeBase.eq] using heq
    have e1 := Except.ok.inj h1
    have e2 := Except.ok.inj h2
    rw [← e1, ← e2, hshape]

/-- C14, amended, on `Shape(2, 3)` and `Shape{2, 3}`. -/
theorem shape_size_invariant_witness :
    (∀ k, k ≤ [2, 3].length → (([2, 3].map (fun x => x % SIZE_MOD)).take k).prod < 2 ^ 31) ∧
      (ShapeBase.ctorArgs 2 [3]).SizeRange 0 (ShapeBase.ctorArgs 2 [3]).Dims = .ok 6 ∧
      (ShapeBase.ctorList [2, 3]).SizeRange 0 (ShapeBase.ctorList [2, 3]).Dims = .ok 6 ∧
      (ShapeBase.ctorArgs 2 [3]).Size = (ShapeBase.ctorList [2, 3]).Size := by
  have hl : ∀ k, k ≤ [2, 3].length →
      (([2, 3].map (fun x => x % SIZE_MOD)).take k).prod < 2 ^ 31 := by
    intro k hk
    have hk' : k ≤ 2 := hk
    interval_cases k <;> decide
  exact ⟨hl, (shape_size_invariant.1 2 [3]).1, (shape_size_invariant.2.1 ShapeBase.ctor [2, 3] hl).1,
    shape_size_invariant.2.2.2 _ _ (shape_size_invariant.1 2 [3]).1
      (shape_size_invariant.2.1 ShapeBase.ctor [2, 3] hl).1 rfl⟩

/-- C17, at the failing input: `Shape{65536, 65536}` has `Size() == 0` and
`Shape(65536, 65536)` has `Size() == 2 ^ 32`, the product modulo `2 ^ 64`;
`Shape{2147483648}` has `Size() == 2 ^ 64 - 2 ^ 31` and `Shape(2147483648)`
has `Size() == 2 ^ 31`. -/
theorem shape_forms_differ :
    (ShapeBase.ctorList [65536, 65536]).Size = 0 ∧
      (ShapeBase.ctorArgs 65536 [65536]).Size = 4294967296 ∧
      65536 * 65536 % SIZE_MOD = 4294967296 ∧
      (ShapeBase.ctorList [bigLen]).Size = 2 ^ 64 - 2 ^ 31 ∧
      (ShapeBase.ctorArgs bigLen []).Size = 2 ^ 31 :=
  ⟨rfl, rfl, by decide, assignList_len_big ShapeBase.ctor, rfl⟩

end mou

/-! ## Reshape and move -/

namespace mou

theorem assert_false (c : Bool) : assert false c = if c then .ok () else .error .assertion := by
  cases c <;> rfl

theorem assert_true (c : Bool) : assert true c = .ok () := by
  cases c <;> rfl

/-- The three reshapes with assertions enabled, on a new shape `src`. -/
theorem Reshape_checked (t : Tensor) (src : ShapeBase) :
    ((t.Reshape false src).1 = some .assertion ↔ t.Shape_.Size ≠ src.Size) ∧
      ((t.Reshape false src).1 = none ↔ t.Shape_.Size = src.Size) ∧
      (t.Shape_.Size ≠ src.Size → (t.Reshape false src).2 = t) ∧
      (t.Shape_.Size = src.Size → (t.Reshape false src).2 = ⟨t.dptr, src⟩) := by
  by_cases hs : t.shape.Size = src.Size
  · have hb : (t.shape.Size == src.Size) = true := by simpa using hs
    simp [Tensor.Reshape, Tensor.Shape_, assert_false, hb, hs]
  · have hb : (t.shape.Size == src.Size) = false := by simpa using hs
    simp [Tensor.Reshape, Tensor.Shape_, assert_false, hb, hs]

theorem ReshapeArgs_eq (NDEBUG : Bool) (t : Tensor) (a : Nat) (as : List Nat) :
    t.ReshapeArgs NDEBUG a as = t.Reshape NDEBUG (ShapeBase.ctorArgs a as) := rfl

theorem ReshapeLike_eq (NDEBUG : Bool) (t other : Tensor) :
    t.ReshapeLike NDEBUG other = t.Reshape NDEBUG other.shape := rfl

theorem Reshape_unchecked (t : Tensor) (src : ShapeBase) :
    t.Reshape true src = (none, ⟨t.dptr, src⟩) := by
  simp [Tensor.Reshape, assert_true]

/-- The three reshapes on a new shape of the same length: no fault, in either
build. -/
theorem Reshape_same (NDEBUG : Bool) (t : Tensor) (src : ShapeBase)
    (hs : t.Shape_.Size = src.Size) : t.Reshape NDEBUG src = (none, ⟨t.dptr, src⟩) := by
  cases NDEBUG with
  | true => exact Reshape_unchecked t src
  | false =>
    have hb : (t.shape.Size == src.Size) = true := by simpa [Tensor.Shape_] using hs
    simp [Tensor.Reshape, assert_false, hb]

/-- C11, as the claim states it, fails: in a build with `NDEBUG` the tensor
`A{1, 2, 3}` of the test, of length 3, is reshaped to `Shape(5)`, of length 5,
without any failure. -/
theorem reshape_rejects_counterexample :
    testA.Shape_.Size = 3 ∧ (ShapeBase.ctorArgs 5 []).Size = 5 ∧
      (testA.Reshape true (ShapeBase.ctorArgs 5 [])).1 = none ∧
      (testA.Reshape true (ShapeBase.ctorArgs 5 [])).2.Shape_ = ShapeBase.ctorArgs 5 [] ∧
      (testA.ReshapeArgs true 5 []).1 = none ∧ (testA.ReshapeLike true ⟨none, ⟨[5], 5⟩⟩).1 = none :=
  ⟨rfl, rfl, rfl, rfl, rfl, rfl⟩

/-- C11, amended. In a build with assertions enabled (`NDEBUG` not defined),
`Reshape(s)`, `Reshape(args...)` and `ReshapeLike(other)` fail, by a failed
`assert`, if and only if `Shape_().Size()` differs from the `Size()` of the new
shape, and then the tensor, its pointer and shape, is what it was before the
call (no reshape touches the store).  In a build with `NDEBUG` they never fail
and always set the shape. -/
theorem reshape_rejects (t : Tensor) (s : ShapeBase) (a : Nat) (as : List Nat) (other : Tensor) :
    (((t.Reshape false s).1 = some .assertion ↔ t.Shape_.Size ≠ s.Size) ∧
      ((t.Reshape false s).1 = none ↔ t.Shape_.Size = s.Size) ∧
      (t.Shape_.Size ≠ s.Size → (t.Reshape false s).2 = t)) ∧
    (((t.ReshapeArgs false a as).1 = some .assertion
        ↔ t.Shape_.Size ≠ (ShapeBase.ctorArgs a as).Size) ∧
      ((t.ReshapeArgs false a as).1 = none ↔ t.Shape_.Size = (ShapeBase.ctorArgs a as).Size) ∧
      (t.Shape_.Size ≠ (ShapeBase.ctorArgs a as).Size → (t.ReshapeArgs false a as).2 = t)) ∧
    (((t.ReshapeLike false other).1 = some .assertion ↔ t.Shape_.Size ≠ other.Shape_.Size) ∧
      ((t.ReshapeLike false other).1 = none ↔ t.Shape_.Size = other.Shape_.Size) ∧
      (t.Shape_.Size ≠ other.Shape_.Size → (t.ReshapeLike false other).2 = t)) ∧
    (t.Reshape true s = (none, ⟨t.dptr, s⟩) ∧
      t.ReshapeArgs true a as = (none, ⟨t.dptr, ShapeBase.ctorArgs a as⟩) ∧
      t.ReshapeLike true other = (none, ⟨t.dptr, other.Shape_⟩)) := by
  refine ⟨?_, ?_, ?_, Reshape_unchecked t s, ?_, ?_⟩
  · exact ⟨(Reshape_checked t s).1, (Reshape_checked t s).2.1, (Reshape_checked t s).2.2.1⟩
  · rw [ReshapeArgs_eq]
    exact ⟨(Reshape_checked t _).1, (Reshape_checked t _).2.1, (Reshape_checked t _).2.2.1⟩
  · rw [ReshapeLike_eq]
    exact ⟨(Reshape_checked t _).1, (Reshape_checked t _).2.1, (Reshape_checked t _).2.2.1⟩
  · rw [ReshapeArgs_eq]
    exact Reshape_unchecked t _
  · rw [ReshapeLike_eq]
    exact Reshape_unchecked t _

/-- C11, amended, on the tensor `A{1, 2, 3}` of the test and `Shape(5)`, with
assertions enabled: the reshape fails and `A` is as before. -/
theorem reshape_rejects_witness :
    testA.Shape_.Size ≠ (ShapeBase.ctorArgs 5 []).Size ∧
      (testA.Reshape false (ShapeBase.ctorArgs 5 [])).1 = some .assertion ∧
      (testA.Reshape false (ShapeBase.ctorArgs 5 [])).2 = testA :=
  ⟨by decide,
    (reshape_rejects testA (ShapeBase.ctorArgs 5 []) 5 [] testA).1.1.mpr (by decide),
    (reshape_rejects testA (ShapeBase.ctorArgs 5 []) 5 [] testA).1.2.2 (by decide)⟩

/-- C16. For every tensor `t` and shape `s` with
`t.Shape_().Size() == s.Size()`, `t.Reshape(s)` does not fail, and afterwards
the shape of the tensor is `s`, its `Size()` is what it was, and `t[i]` is what
it was at every index `i`; the same holds for `Reshape(args...)` and
`ReshapeLike(other)`.  This is so with and without `NDEBUG`. -/
theorem reshape_preserves {α : Type} (NDEBUG : Bool) (h : Heap α) (t : Tensor) :
    (∀ s : ShapeBase, t.Shape_.Size = s.Size →
      (t.Reshape NDEBUG s).1 = none ∧ (t.Reshape NDEBUG s).2.Shape_ = s ∧
      (t.Reshape NDEBUG s).2.Shape_.eq s = true ∧
      (t.Reshape NDEBUG s).2.Shape_.Size = t.Shape_.Size ∧
      ∀ i, (t.Reshape NDEBUG s).2.get h i = t.get h i) ∧
    (∀ (a : Nat) (as : List Nat), t.Shape_.Size = (ShapeBase.ctorArgs a as).Size →
      (t.ReshapeArgs NDEBUG a as).1 = none ∧
      (t.ReshapeArgs NDEBUG a as).2.Shape_ = ShapeBase.ctorArgs a as ∧
      (t.ReshapeArgs NDEBUG a as).2.Shape_.eq (ShapeBase.ctorArgs a as) = true ∧
      (t.ReshapeArgs NDEBUG a as).2.Shape_.Size = t.Shape_.Size ∧
      ∀ i, (t.ReshapeArgs NDEBUG a as).2.get h i = t.get h i) ∧
    (∀ other : Tensor, t.Shape_.Size = other.Shape_.Size →
      (t.ReshapeLike NDEBUG other).1 = none ∧
      (t.ReshapeLike NDEBUG other).2.Shape_ = other.Shape_ ∧
      (t.ReshapeLike NDEBUG other).2.Shape_.eq other.Shape_ = true ∧
      (t.ReshapeLike NDEBUG other).2.Shape_.Size = t.Shape_.Size ∧
      ∀ i, (t.ReshapeLike NDEBUG other).2.get h i = t.get h i) := by
  have key : ∀ s : ShapeBase, t.Shape_.Size = s.Size →
      (t.Reshape NDEBUG s).1 = none ∧ (t.Reshape NDEBUG s).2.Shape_ = s ∧
      (t.Reshape NDEBUG s).2.Shape_.eq s = true ∧
      (t.Reshape NDEBUG s).2.Shape_.Size = t.Shape_.Size ∧
      ∀ i, (t.Reshape NDEBUG s).2.get h i = t.get h i := by
    intro s hs
    rw [Reshape_same NDEBUG t s hs]
    refine ⟨rfl, rfl, ?_, hs.symm, fun i => rfl⟩
    simp [Tensor.Shape_, ShapeBase.eq]
  refine ⟨key, ?_, ?_⟩
  · intro a as hs
    rw [ReshapeArgs_eq]
    exact key _ hs
  · intro other hs
    rw [ReshapeLike_eq]
    exact key _ hs

/-- C16, on the tensor `A{1, 2, 3}` of the test reshaped to `Shape(1, 3)`. -/
theorem reshape_preserves_witness :
    testA.Shape_.Size = (ShapeBase.ctorArgs 1 [3]).Size ∧
      (testA.Reshape false (ShapeBase.ctorArgs 1 [3])).1 = none ∧
      (testA.Reshape false (ShapeBase.ctorArgs 1 [3])).2.Shape_ = ShapeBase.ctorArgs 1 [3] ∧
      (testA.Reshape false (ShapeBase.ctorArgs 1 [3])).2.Shape_.Size = 3 ∧
      (testA.Reshape false (ShapeBase.ctorArgs 1 [3])).2.get testStore 2 = .ok 3 := by
  obtain ⟨h1, h2, _, h4, h5⟩ :=
    (reshape_preserves false testStore testA).1 (ShapeBase.ctorArgs 1 [3]) rfl
  exact ⟨rfl, h1, h2, h4, h5 2⟩

/-- C12, at the failing input: after `Tensor<float> b{1, 2, 3};
Tensor<float> c(std::move(b));` the tensor `c` holds the shape and elements of
`b`, and `b` has a null pointer but `Shape_().Size() == 3`: destroying `b`
releases nothing, assigning an expression to `b` writes through the null
pointer.  The move assignment `d = std::move(b)` leaves `b` the same. -/
theorem move_leaves_length :
    (∃ c b h, moveScenario = .ok (c, b, h) ∧ c.Holds h [1, 2, 3] ∧ c.Shape_ = ⟨[3], 3⟩ ∧
      b.dptr = none ∧ b.Shape_.Size = 3 ∧ b.dtor h = .ok h ∧
      b.assignExp h (.leaf c) = .error .undefined) ∧
    (∃ d b h, moveAssignScenario = .ok (d, b, h) ∧ d.Holds h [1, 2, 3] ∧ d.Shape_ = ⟨[3], 3⟩ ∧
      b.dptr = none ∧ b.Shape_.Size = 3 ∧ b.dtor h = .ok h ∧
      b.assignExp h (.leaf d) = .error .undefined) :=
  ⟨⟨⟨some 0, ⟨[3], 3⟩⟩, ⟨none, ⟨[], 3⟩⟩, ⟨[some [some 1, some 2, some 3]]⟩,
      rfl, ⟨rfl, rfl⟩, rfl, rfl, rfl, rfl, rfl⟩,
    ⟨⟨some 0, ⟨[3], 3⟩⟩, ⟨none, ⟨[], 3⟩⟩, ⟨[some [some 1, some 2, some 3], none]⟩,
      rfl, ⟨rfl, rfl⟩, rfl, rfl, rfl, rfl, rfl⟩⟩

end mou

/-! ## Allocation and aliasing -/

namespace mou

/-- C13. Assigning a composition built with `F<op>(...)`, of depth 3 or of any
depth, to a target container makes no call of the allocator: wherever
`target = expr` stops, at its end or at a fault, the store has the blocks it had
(none allocated, none released), and only the block of the target may have
changed; and the result of `operator=` is that of this run.  Building the
composition with `F` does not involve the store at all. -/
theorem no_intermediate_allocation {α : Type} (h : Heap α) (t : Tensor) (e : Exp α) :
    (t.assignTrace e (t.shape.Size + 1) 0 h).2.allocations = h.allocations ∧
      (∀ c : Nat, (t.assignTrace e (t.shape.Size + 1) 0 h).2.blocks[c]? = some none
        ↔ h.blocks[c]? = some none) ∧
      (∀ c : Nat, t.dptr ≠ some c →
        (t.assignTrace e (t.shape.Size + 1) 0 h).2.blocks[c]? = h.blocks[c]?) ∧
      t.assignExp h e =
        (match (t.assignTrace e (t.shape.Size + 1) 0 h).1 with
          | none => .ok (t, (t.assignTrace e (t.shape.Size + 1) 0 h).2)
          | some f => .error f) := by
  obtain ⟨f1, f2, f3⟩ := Tensor.assignTrace_frame t e (t.shape.Size + 1) 0 h
  refine ⟨f1, f2, f3, ?_⟩
  simp only [Tensor.assignExp, bind, Except.bind, Tensor.assignLoop_trace]
  cases (t.assignTrace e (t.shape.Size + 1) 0 h).1 <;> rfl

/-- C13, on the composition of depth 3 `F<div>(B, F<maximum>(C, F<minimum>(C, B)))`
assigned to the container `A` of the test: the assignment ends, and the store
has its three blocks before and after. -/
theorem no_intermediate_allocation_witness :
    testDeep.depth = 3 ∧ testStore.allocations = 3 ∧
      ∃ h', testA.assignExp testStore testDeep = .ok (testA, h') ∧ h'.allocations = 3 ∧
        ∀ c : Nat, testA.dptr ≠ some c → h'.blocks[c]? = testStore.blocks[c]? := by
  obtain ⟨f1, _, f3, f4⟩ := no_intermediate_allocation testStore testA testDeep
  have hr : (testA.assignTrace testDeep (testA.shape.Size + 1) 0 testStore).1 = none := rfl
  rw [hr] at f4
  exact ⟨rfl, rfl, _, f4, f1, f3⟩

end mou

namespace mou

/-- Expression assignment to a container that holds elements, possibly a leaf of
the expression itself: every index gets the value the expression had in the
store before the assignment. -/
theorem assignExp_snapshot {α : Type} (h : Heap α) (A : Tensor) (e : Exp α) (as : List α)
    (hA : A.Holds h as) (hn : as.length ≤ INT_MAX)
    (hl : ∀ l ∈ e.leaves, ∃ xs, l.Holds h xs ∧ as.length ≤ xs.length) :
    ∃ h', A.assignExp h e = .ok (A, h') ∧
      ∀ i, i < as.length → ∃ v, e.Eval h (i : Int) = .ok v ∧ A.get h' i = .ok v := by
  have hlen : (as.map some).length = as.length := List.length_map _ _
  have hev := Exp.Eval_of_leaves h as.length e hl
  obtain ⟨h', _, hrun, _, _, hget, _, _⟩ :=
    Tensor.assignExp_spec h A e (as.map some) hA.buffer (by rw [hlen]; exact hn)
      (fun j hj => hev j (by rw [hlen] at hj; exact hj))
  refine ⟨h', hrun, fun i hi => ?_⟩
  obtain ⟨v, hv⟩ := hev i hi
  exact ⟨v, hv, by rw [hget i (by rw [hlen]; exact hi), hv]⟩

/-- For every functor `op` and tensors `A`, `B` of equal length
`n <= INT_MAX`, the assignment `A = F<op>(A, B)` ends and leaves
`A[i] == op.Map(A_old[i], B[i])` for every `i < n`; and for every expression in
which `A` occurs as a leaf, whose leaves are containers of length `n` or more,
`A = expr` ends and leaves in `A[i]` the value of `expr.Eval(i)` in the store
as it was before the assignment. -/
theorem assignExp_inplace {α : Type} (op : α → α → α) (h : Heap α) (A B : Tensor)
    (as bs : List α) (hA : A.Holds h as) (hB : B.Holds h bs) (hb : bs.length = as.length)
    (hn : as.length ≤ INT_MAX) :
    (∃ h', A.assignExp h (F op (.leaf A) (.leaf B)) = .ok (A, h') ∧
      ∀ i, i < as.length → ∃ a b, A.get h i = .ok a ∧ B.get h i = .ok b ∧
        A.get h' i = .ok (op a b)) ∧
    (∀ e : Exp α, A ∈ e.leaves →
      (∀ l ∈ e.leaves, ∃ xs, l.Holds h xs ∧ as.length ≤ xs.length) →
      ∃ h', A.assignExp h e = .ok (A, h') ∧
        ∀ i, i < as.length → ∃ v, e.Eval h (i : Int) = .ok v ∧ A.get h' i = .ok v) := by
  refine ⟨?_, fun e _ hl => assignExp_snapshot h A e as hA hn hl⟩
  have hl : ∀ l ∈ (F op (.leaf A) (.leaf B) : Exp α).leaves,
      ∃ xs, l.Holds h xs ∧ as.length ≤ xs.length := by
    intro l hl
    simp only [F, Exp.leaves, List.mem_append, List.mem_singleton] at hl
    rcases hl with rfl | rfl
    · exact ⟨as, hA, le_refl _⟩
    · exact ⟨bs, hB, by omega⟩
  obtain ⟨h', hrun, hall⟩ := assignExp_snapshot h A _ as hA hn hl
  refine ⟨h', hrun, fun i hi => ?_⟩
  obtain ⟨v, hv, hg⟩ := hall i hi
  obtain ⟨a, _, hag, hae⟩ := hA.get_lt hi
  obtain ⟨b, _, hbg, hbe⟩ := hB.get_lt (by omega : i < bs.length)
  have hv' : (F op (Exp.leaf A) (Exp.leaf B)).Eval h (i : Int) = .ok (op a b) :=
    Exp.Eval_F op hae hbe
  rw [hv] at hv'
  cases hv'
  exact ⟨a, b, hag, hbg, hg⟩

/-- On the test, `A = [1, 2, 3]` and `B = [2, 3, 4]` give, after
`A = F<div>(A, B)`, `A = [1/2, 2/3, 3/4]`. -/
theorem assignExp_inplace_test :
    testA.Holds testStore [1, 2, 3] ∧ testB.Holds testStore [2, 3, 4] ∧ 3 ≤ INT_MAX ∧
      ∃ h', testA.assignExp testStore (F div.Map (.leaf testA) (.leaf testB)) = .ok (testA, h') ∧
        testA.get h' 0 = .ok (Flt.fin (1 / 2)) ∧ testA.get h' 1 = .ok (Flt.fin (2 / 3)) ∧
        testA.get h' 2 = .ok (Flt.fin (3 / 4)) := by
  refine ⟨test_holds.1, test_holds.2.1, by decide, ?_⟩
  obtain ⟨h', hrun, hall⟩ := (assignExp_inplace div.Map testStore testA testB [1, 2, 3] [2, 3, 4]
    test_holds.1 test_holds.2.1 rfl (by decide)).1
  refine ⟨h', hrun, ?_, ?_, ?_⟩
  · obtain ⟨a, b, ha, hb, hg⟩ := hall 0 (by decide)
    cases ha; cases hb; rw [hg]; rfl
  · obtain ⟨a, b, ha, hb, hg⟩ := hall 1 (by decide)
    cases ha; cases hb; rw [hg]; rfl
  · obtain ⟨a, b, ha, hb, hg⟩ := hall 2 (by decide)
    cases ha; cases hb; rw [hg]; rfl

end mou

/-! ## Targets of more than `INT_MAX` elements -/

namespace mou

end mou
